import Mathlib

/-!
Verification of the `serde_url` crate: a shallow embedding of
`src/internal.rs` (the `PrivateUrl` decomposition engine, `QueryData`,
`Host` and `Origin`), `src/lib.rs` (the `Url` wrapper and its equality)
and `src/errors.rs` (the `UrlFault` taxonomy), together with a model of
the external grammar validator (the `url` crate) that the spec treats as
an external collaborator.

Strings are embedded as `List Char`; byte strings as `List Nat` with
values below 256.
-/

namespace SerdeUrl

/-! ## Character utilities -/

theorem char_toNat_ofNat {n : Nat} (h : n.isValidChar) : (Char.ofNat n).toNat = n := by
  unfold Char.ofNat
  rw [dif_pos h]
  unfold Char.ofNatAux Char.toNat
  simp only [UInt32.toNat]
  exact BitVec.toNat_ofNatLt _ _

theorem char_toNat_injective {c d : Char} (h : c.toNat = d.toNat) : c = d := by
  have hc := Char.ofNat_toNat c
  have hd := Char.ofNat_toNat d
  rw [← hc, ← hd, h]

/-- ASCII lower-case letter. -/
def isLowerC (c : Char) : Bool := 97 ≤ c.toNat && c.toNat ≤ 122

/-- ASCII upper-case letter. -/
def isUpperC (c : Char) : Bool := 65 ≤ c.toNat && c.toNat ≤ 90

/-- ASCII letter. -/
def isAlphaC (c : Char) : Bool := isLowerC c || isUpperC c

/-- ASCII decimal digit. -/
def isDigitC (c : Char) : Bool := 48 ≤ c.toNat && c.toNat ≤ 57

/-- ASCII hexadecimal digit. -/
def isHexC (c : Char) : Bool :=
  isDigitC c || (97 ≤ c.toNat && c.toNat ≤ 102) || (65 ≤ c.toNat && c.toNat ≤ 70)

/-- ASCII lower-casing of a single character, as performed on schemes and
domains by the grammar validator. -/
def toLowerC (c : Char) : Char :=
  if isUpperC c then Char.ofNat (c.toNat + 32) else c

theorem toLowerC_eq_of_not_upper {c : Char} (h : isUpperC c = false) : toLowerC c = c := by
  simp [toLowerC, h]

theorem toNat_toLowerC_of_upper {c : Char} (h : isUpperC c = true) :
    (toLowerC c).toNat = c.toNat + 32 := by
  have hn : 65 ≤ c.toNat ∧ c.toNat ≤ 90 := by
    simpa [isUpperC, Bool.and_eq_true, decide_eq_true_eq] using h
  have hv : (c.toNat + 32).isValidChar := Or.inl (by omega)
  unfold toLowerC
  rw [if_pos h]
  exact char_toNat_ofNat hv

theorem isUpperC_toLowerC (c : Char) : isUpperC (toLowerC c) = false := by
  by_cases h : isUpperC c = true
  · have ht := toNat_toLowerC_of_upper h
    have hn : 65 ≤ c.toNat ∧ c.toNat ≤ 90 := by
      simpa [isUpperC, Bool.and_eq_true, decide_eq_true_eq] using h
    simp only [isUpperC, ht, Bool.and_eq_false_iff, decide_eq_false_iff_not]
    right; omega
  · simp only [Bool.not_eq_true] at h
    rw [toLowerC_eq_of_not_upper h]
    exact h

theorem toLowerC_idem (c : Char) : toLowerC (toLowerC c) = toLowerC c :=
  toLowerC_eq_of_not_upper (isUpperC_toLowerC c)

theorem isDigitC_toLowerC (c : Char) : isDigitC (toLowerC c) = isDigitC c := by
  by_cases h : isUpperC c = true
  · have ht := toNat_toLowerC_of_upper h
    have hn : 65 ≤ c.toNat ∧ c.toNat ≤ 90 := by
      simpa [isUpperC, Bool.and_eq_true, decide_eq_true_eq] using h
    rw [Bool.eq_iff_iff]
    simp only [isDigitC, ht, Bool.and_eq_true, decide_eq_true_eq]
    omega
  · simp only [Bool.not_eq_true] at h
    rw [toLowerC_eq_of_not_upper h]

theorem isAlphaC_toLowerC (c : Char) : isAlphaC (toLowerC c) = isAlphaC c := by
  by_cases h : isUpperC c = true
  · have ht := toNat_toLowerC_of_upper h
    have hn : 65 ≤ c.toNat ∧ c.toNat ≤ 90 := by
      simpa [isUpperC, Bool.and_eq_true, decide_eq_true_eq] using h
    rw [Bool.eq_iff_iff]
    simp only [isAlphaC, isLowerC, isUpperC, ht, Bool.or_eq_true, Bool.and_eq_true,
      decide_eq_true_eq]
    omega
  · simp only [Bool.not_eq_true] at h
    rw [toLowerC_eq_of_not_upper h]

theorem toLowerC_ne_of_lt_65 {c : Char} (d : Char) (hd : d.toNat < 65) (h : toLowerC c = d) :
    c = d := by
  by_cases hu : isUpperC c = true
  · have ht := toNat_toLowerC_of_upper hu
    simp only [isUpperC, Bool.and_eq_true, decide_eq_true_eq] at hu
    rw [h] at ht
    omega
  · simp only [Bool.not_eq_true] at hu
    rwa [toLowerC_eq_of_not_upper hu] at h

/-! ## List splitting utilities -/

/-- Split a list at the first occurrence of `c`, returning the parts
before and after it, or `none` when `c` does not occur. -/
def splitFirst (c : Char) : List Char → Option (List Char × List Char)
  | [] => none
  | x :: rest =>
    if x = c then some ([], rest)
    else (splitFirst c rest).map (fun p => (x :: p.1, p.2))

theorem splitFirst_eq_some {c : Char} {l a b : List Char}
    (h : splitFirst c l = some (a, b)) : l = a ++ c :: b ∧ c ∉ a := by
  induction l generalizing a b with
  | nil => simp [splitFirst] at h
  | cons x rest ih =>
    simp only [splitFirst] at h
    split at h
    · next hx =>
      simp only [Option.some.injEq, Prod.mk.injEq] at h
      subst hx
      rw [← h.1, ← h.2]
      simp
    · next hx =>
      simp only [Option.map_eq_some'] at h
      obtain ⟨⟨a1, b1⟩, h1, h2⟩ := h
      simp only [Prod.mk.injEq] at h2
      obtain ⟨he, hne⟩ := ih h1
      rw [← h2.1, ← h2.2]
      constructor
      · simp [he]
      · simp only [List.mem_cons, not_or]
        exact ⟨fun hc => hx hc.symm, hne⟩

theorem splitFirst_eq_none {c : Char} {l : List Char}
    (h : splitFirst c l = none) : c ∉ l := by
  induction l with
  | nil => simp
  | cons x rest ih =>
    simp only [splitFirst] at h
    split at h
    · simp at h
    · next hx =>
      simp only [Option.map_eq_none'] at h
      simp only [List.mem_cons, not_or]
      exact ⟨fun hc => hx hc.symm, ih h⟩

theorem splitFirst_append {c : Char} {a : List Char} (b : List Char) (h : c ∉ a) :
    splitFirst c (a ++ c :: b) = some (a, b) := by
  induction a with
  | nil => simp [splitFirst]
  | cons x rest ih =>
    simp only [List.mem_cons, not_or] at h
    simp only [List.cons_append, splitFirst, List.append_eq]
    rw [if_neg (fun he => h.1 he.symm), ih h.2]
    rfl

theorem splitFirst_not_mem {c : Char} {l : List Char} (h : c ∉ l) :
    splitFirst c l = none := by
  induction l with
  | nil => rfl
  | cons x rest ih =>
    simp only [List.mem_cons, not_or] at h
    simp only [splitFirst]
    rw [if_neg (fun he => h.1 he.symm), ih h.2]
    rfl

/-- Split a list on every occurrence of `c`, keeping empty segments
(the behaviour of splitting on `&` and `.` separators). -/
def splitOnChar (c : Char) : List Char → List (List Char)
  | [] => [[]]
  | x :: rest =>
    if x = c then [] :: splitOnChar c rest
    else
      match splitOnChar c rest with
      | [] => [[x]]
      | g :: gs => (x :: g) :: gs

/-- Join parts with a separator (inverse of `splitOnChar` on clean parts). -/
def joinSep (c : Char) : List (List Char) → List Char
  | [] => []
  | [p] => p
  | p :: q :: ps => p ++ c :: joinSep c (q :: ps)

theorem splitOnChar_ne_nil (c : Char) (l : List Char) : splitOnChar c l ≠ [] := by
  cases l with
  | nil => simp [splitOnChar]
  | cons x rest =>
    simp only [splitOnChar]
    split
    · simp
    · split <;> simp

theorem splitOnChar_not_mem {c : Char} {l : List Char} (h : c ∉ l) :
    splitOnChar c l = [l] := by
  induction l with
  | nil => rfl
  | cons x rest ih =>
    simp only [List.mem_cons, not_or] at h
    simp only [splitOnChar]
    rw [if_neg (fun he => h.1 he.symm), ih h.2]

theorem splitOnChar_append {c : Char} {p : List Char} (t : List Char) (h : c ∉ p) :
    splitOnChar c (p ++ c :: t) = p :: splitOnChar c t := by
  induction p with
  | nil => simp [splitOnChar]
  | cons x rest ih =>
    simp only [List.mem_cons, not_or] at h
    simp only [List.cons_append, splitOnChar, List.append_eq]
    rw [if_neg (fun he => h.1 he.symm), ih h.2]

theorem splitOnChar_joinSep {c : Char} {parts : List (List Char)}
    (hne : parts ≠ []) (h : ∀ p ∈ parts, c ∉ p) :
    splitOnChar c (joinSep c parts) = parts := by
  induction parts with
  | nil => exact absurd rfl hne
  | cons p ps ih =>
    cases ps with
    | nil =>
      simp only [joinSep]
      exact splitOnChar_not_mem (h p (by simp))
    | cons q qs =>
      simp only [joinSep]
      rw [splitOnChar_append _ (h p (by simp))]
      rw [ih (by simp) (fun x hx => h x (List.mem_cons_of_mem p hx))]

/-! ## takeWhile / dropWhile over concatenations -/

theorem takeWhile_append_all {p : Char → Bool} {xs : List Char} (ys : List Char)
    (h : ∀ x ∈ xs, p x = true) :
    (xs ++ ys).takeWhile p = xs ++ ys.takeWhile p := by
  induction xs with
  | nil => simp
  | cons x rest ih =>
    have hx := h x (by simp)
    rw [List.cons_append, List.takeWhile_cons, if_pos hx,
      ih (fun y hy => h y (by simp [hy])), List.cons_append]

theorem dropWhile_append_all {p : Char → Bool} {xs : List Char} (ys : List Char)
    (h : ∀ x ∈ xs, p x = true) :
    (xs ++ ys).dropWhile p = ys.dropWhile p := by
  induction xs with
  | nil => simp
  | cons x rest ih =>
    have hx := h x (by simp)
    rw [List.cons_append, List.dropWhile_cons, if_pos hx]
    exact ih (fun y hy => h y (by simp [hy]))

theorem mem_takeWhile {p : Char → Bool} {l : List Char} {x : Char}
    (h : x ∈ l.takeWhile p) : p x = true := by
  induction l with
  | nil => simp at h
  | cons y rest ih =>
    rw [List.takeWhile_cons] at h
    by_cases hy : p y = true
    · rw [if_pos hy] at h
      rcases List.mem_cons.mp h with h1 | h1
      · rw [h1]; exact hy
      · exact ih h1
    · rw [if_neg hy] at h
      simp at h

/-! ## Decimal and hexadecimal digit strings -/

/-- The character for a decimal digit value below 10. -/
def digitCharOf (n : Nat) : Char := Char.ofNat (48 + n)

/-- The character for a hexadecimal digit value below 16 (lower-case). -/
def hexCharOf (n : Nat) : Char := if n < 10 then Char.ofNat (48 + n) else Char.ofNat (87 + n)

/-- Numeric value of a decimal digit character. -/
def decValOf (c : Char) : Nat := c.toNat - 48

/-- Numeric value of a hexadecimal digit character (either case). -/
def hexValOf (c : Char) : Nat :=
  if c.toNat ≤ 57 then c.toNat - 48
  else if c.toNat ≤ 70 then c.toNat - 55
  else c.toNat - 87

/-- Minimal decimal rendering of a natural number. -/
def natToDec (n : Nat) : List Char :=
  if n = 0 then ['0'] else ((Nat.digits 10 n).map digitCharOf).reverse

/-- Minimal lower-case hexadecimal rendering of a natural number. -/
def natToHex (n : Nat) : List Char :=
  if n = 0 then ['0'] else ((Nat.digits 16 n).map hexCharOf).reverse

/-- Parse a non-empty all-digit string as a decimal number. -/
def parseDec (l : List Char) : Option Nat :=
  if l ≠ [] ∧ l.all isDigitC then some (l.foldl (fun a c => a * 10 + decValOf c) 0) else none

/-- Parse a non-empty all-hex-digit string as a hexadecimal number. -/
def parseHex (l : List Char) : Option Nat :=
  if l ≠ [] ∧ l.all isHexC then some (l.foldl (fun a c => a * 16 + hexValOf c) 0) else none

theorem toNat_digitCharOf {d : Nat} (h : d < 10) : (digitCharOf d).toNat = 48 + d :=
  char_toNat_ofNat (Or.inl (by omega))

theorem toNat_hexCharOf_lt {d : Nat} (h : d < 10) : (hexCharOf d).toNat = 48 + d := by
  rw [hexCharOf, if_pos h]
  exact char_toNat_ofNat (Or.inl (by omega))

theorem toNat_hexCharOf_ge {d : Nat} (h1 : 10 ≤ d) (h2 : d < 16) :
    (hexCharOf d).toNat = 87 + d := by
  rw [hexCharOf, if_neg (by omega)]
  exact char_toNat_ofNat (Or.inl (by omega))

theorem isDigitC_digitCharOf {d : Nat} (h : d < 10) : isDigitC (digitCharOf d) = true := by
  simp only [isDigitC, toNat_digitCharOf h, Bool.and_eq_true, decide_eq_true_eq]
  omega

theorem isHexC_hexCharOf {d : Nat} (h : d < 16) : isHexC (hexCharOf d) = true := by
  by_cases h10 : d < 10
  · simp only [isHexC, isDigitC, toNat_hexCharOf_lt h10, Bool.or_eq_true, Bool.and_eq_true,
      decide_eq_true_eq]
    omega
  · simp only [isHexC, isDigitC, toNat_hexCharOf_ge (by omega) h, Bool.or_eq_true,
      Bool.and_eq_true, decide_eq_true_eq]
    omega

theorem decValOf_digitCharOf {d : Nat} (h : d < 10) : decValOf (digitCharOf d) = d := by
  simp [decValOf, toNat_digitCharOf h]

theorem hexValOf_hexCharOf {d : Nat} (h : d < 16) : hexValOf (hexCharOf d) = d := by
  by_cases h10 : d < 10
  · rw [hexValOf, toNat_hexCharOf_lt h10, if_pos (by omega)]
    omega
  · rw [hexValOf, toNat_hexCharOf_ge (by omega) h, if_neg (by omega), if_neg (by omega)]
    omega

theorem foldr_digits_readback {b : Nat} (f : Nat → Char) (g : Char → Nat) (L : List Nat)
    (hfg : ∀ d ∈ L, g (f d) = d) :
    (L.map f).foldr (fun c a => a * b + g c) 0 = Nat.ofDigits b L := by
  induction L with
  | nil => simp [Nat.ofDigits]
  | cons d L ih =>
    simp only [List.map_cons, List.foldr_cons, Nat.ofDigits_cons]
    rw [ih (fun x hx => hfg x (by simp [hx])), hfg d (by simp)]
    ring

theorem foldl_rev_digits {b : Nat} (hb : 1 < b) (f : Nat → Char) (g : Char → Nat)
    (hfg : ∀ d, d < b → g (f d) = d) (n : Nat) :
    ((Nat.digits b n).map f).reverse.foldl (fun a c => a * b + g c) 0 = n := by
  rw [List.foldl_reverse]
  have h1 : ((Nat.digits b n).map f).foldr (fun c a => a * b + g c) 0 = Nat.ofDigits b (Nat.digits b n) :=
    foldr_digits_readback f g _ (fun d hd => hfg d (Nat.digits_lt_base hb hd))
  have h2 : Nat.ofDigits b (Nat.digits b n) = n := by
    exact_mod_cast Nat.ofDigits_digits b n
  simpa [h1] using h2

theorem natToDec_ne_nil (n : Nat) : natToDec n ≠ [] := by
  rw [natToDec]
  split
  · simp
  · next h =>
    simp only [ne_eq, List.reverse_eq_nil_iff, List.map_eq_nil_iff]
    exact Nat.digits_ne_nil_iff_ne_zero.mpr h

theorem natToDec_all_digit (n : Nat) : (natToDec n).all isDigitC = true := by
  rw [natToDec]
  split
  · decide
  · simp only [List.all_eq_true, List.mem_reverse, List.mem_map]
    rintro c ⟨d, hd, rfl⟩
    exact isDigitC_digitCharOf (Nat.digits_lt_base (by omega) hd)

theorem natToHex_ne_nil (n : Nat) : natToHex n ≠ [] := by
  rw [natToHex]
  split
  · simp
  · next h =>
    simp only [ne_eq, List.reverse_eq_nil_iff, List.map_eq_nil_iff]
    exact Nat.digits_ne_nil_iff_ne_zero.mpr h

theorem natToHex_all_hex (n : Nat) : (natToHex n).all isHexC = true := by
  rw [natToHex]
  split
  · decide
  · simp only [List.all_eq_true, List.mem_reverse, List.mem_map]
    rintro c ⟨d, hd, rfl⟩
    exact isHexC_hexCharOf (Nat.digits_lt_base (by omega) hd)

theorem parseDec_natToDec (n : Nat) : parseDec (natToDec n) = some n := by
  rw [parseDec, if_pos ⟨natToDec_ne_nil n, by simpa using natToDec_all_digit n⟩]
  rw [natToDec]
  split
  · next h => subst h; decide
  · rw [foldl_rev_digits (by omega) digitCharOf decValOf (fun d hd => decValOf_digitCharOf hd) n]

theorem parseHex_natToHex (n : Nat) : parseHex (natToHex n) = some n := by
  rw [parseHex, if_pos ⟨natToHex_ne_nil n, by simpa using natToHex_all_hex n⟩]
  rw [natToHex]
  split
  · next h => subst h; decide
  · rw [foldl_rev_digits (by omega) hexCharOf hexValOf (fun d hd => hexValOf_hexCharOf hd) n]

/-! ## Character-set exclusion facts -/

theorem ne_of_toNat_ne {c d : Char} (h : c.toNat ≠ d.toNat) : c ≠ d :=
  fun he => h (he ▸ rfl)

theorem isDigitC_toNat {c : Char} (h : isDigitC c = true) : 48 ≤ c.toNat ∧ c.toNat ≤ 57 := by
  simpa [isDigitC, Bool.and_eq_true, decide_eq_true_eq] using h

theorem isHexC_toNat {c : Char} (h : isHexC c = true) :
    (48 ≤ c.toNat ∧ c.toNat ≤ 57) ∨ (97 ≤ c.toNat ∧ c.toNat ≤ 102) ∨
      (65 ≤ c.toNat ∧ c.toNat ≤ 70) := by
  simp only [isHexC, isDigitC, Bool.or_eq_true, Bool.and_eq_true, decide_eq_true_eq] at h
  tauto

/-! ## UTF-8 encoding and decoding

The Rust code stores text as UTF-8 bytes; `percent_decode` operates on
bytes and `decode_utf8` re-validates the result. We model bytes as `Nat`
values below 256. -/

/-- UTF-8 encoding of a single scalar value. -/
def utf8EncodeChar (c : Char) : List Nat :=
  let n := c.toNat
  if n < 128 then [n]
  else if n < 2048 then [192 + n / 64, 128 + n % 64]
  else if n < 65536 then [224 + n / 4096, 128 + n / 64 % 64, 128 + n % 64]
  else [240 + n / 262144, 128 + n / 4096 % 64, 128 + n / 64 % 64, 128 + n % 64]

/-- UTF-8 encoding of a string. -/
def utf8Encode : List Char → List Nat
  | [] => []
  | c :: rest => utf8EncodeChar c ++ utf8Encode rest

/-- Decode one UTF-8 scalar from lead byte `b` and remaining bytes
`rest`, returning the scalar and the bytes after it; `none` when the
sequence at this position is invalid. Enforces the validity rules of
Rust's `str::from_utf8`: no overlong forms, no surrogates, no lead bytes
above `0xF4`. -/
def utf8First (b : Nat) (rest : List Nat) : Option (Char × List Nat) :=
  if b < 128 then some (Char.ofNat b, rest)
  else if b < 194 then none
  else if b < 224 then
    match rest with
    | b2 :: rest2 =>
      if 128 ≤ b2 ∧ b2 < 192 then
        some (Char.ofNat ((b - 192) * 64 + (b2 - 128)), rest2)
      else none
    | [] => none
  else if b < 240 then
    match rest with
    | b2 :: b3 :: rest3 =>
      if ((if b = 224 then 160 else 128) ≤ b2 ∧ b2 < (if b = 237 then 160 else 192)) ∧
          (128 ≤ b3 ∧ b3 < 192) then
        some (Char.ofNat ((b - 224) * 4096 + (b2 - 128) * 64 + (b3 - 128)), rest3)
      else none
    | _ => none
  else if b < 245 then
    match rest with
    | b2 :: b3 :: b4 :: rest4 =>
      if ((if b = 240 then 144 else 128) ≤ b2 ∧ b2 < (if b = 244 then 144 else 192)) ∧
          (128 ≤ b3 ∧ b3 < 192) ∧ (128 ≤ b4 ∧ b4 < 192) then
        some (Char.ofNat ((b - 240) * 262144 + (b2 - 128) * 4096 + (b3 - 128) * 64 + (b4 - 128)),
          rest4)
      else none
    | _ => none
  else none

set_option maxRecDepth 8000 in
theorem utf8First_length {b : Nat} {rest : List Nat} {c : Char} {r : List Nat}
    (h : utf8First b rest = some (c, r)) : r.length ≤ rest.length := by
  unfold utf8First at h
  repeat' split at h
  all_goals first
    | exact Option.noConfusion h
    | (cases h
       simp_all [List.length_cons]
       try omega)

/-- Fuel-driven loop of strict UTF-8 decoding; the fuel only bounds the
number of decoded scalars and is initialized to the byte count, which
always suffices since every scalar consumes at least one byte. -/
def utf8DecodeF : Nat → List Nat → Option (List Char)
  | _, [] => some []
  | 0, _ :: _ => none
  | fuel + 1, b :: rest =>
    match utf8First b rest with
    | some (c, r) => (utf8DecodeF fuel r).map (fun cs => c :: cs)
    | none => none

/-- Strict UTF-8 decoding, mirroring Rust's `str::from_utf8` (used by
`percent_decode(..).decode_utf8()`). -/
def utf8Decode (l : List Nat) : Option (List Char) := utf8DecodeF l.length l

/-- Fuel-driven loop of lossy UTF-8 decoding. -/
def utf8DecodeLossyF : Nat → List Nat → List Char
  | _, [] => []
  | 0, _ :: _ => []
  | fuel + 1, b :: rest =>
    match utf8First b rest with
    | some (c, r) => c :: utf8DecodeLossyF fuel r
    | none => Char.ofNat 65533 :: utf8DecodeLossyF fuel rest

/-- Lossy UTF-8 decoding as used by the validator's query-pair iterator
(`decode_utf8_lossy`): an undecodable position yields U+FFFD and decoding
resumes after the offending lead byte (a simplification of Rust's
maximal-subpart replacement, which can merge several bad bytes into one
replacement character). -/
def utf8DecodeLossy (l : List Nat) : List Char := utf8DecodeLossyF l.length l

/-! ## Percent-decoding -/

/-- Hexadecimal value of a byte, as `char::to_digit(16)` accepts it. -/
def hexDigitVal (b : Nat) : Option Nat :=
  if 48 ≤ b ∧ b ≤ 57 then some (b - 48)
  else if 65 ≤ b ∧ b ≤ 70 then some (b - 55)
  else if 97 ≤ b ∧ b ≤ 102 then some (b - 87)
  else none

/-- Read two hex digits after a `%` sign, as
`percent_encoding::after_percent_sign` does. -/
def percentStep (rest : List Nat) : Option (Nat × List Nat) :=
  match rest with
  | b1 :: b2 :: rest2 =>
    match hexDigitVal b1, hexDigitVal b2 with
    | some h1, some h2 => some (h1 * 16 + h2, rest2)
    | _, _ => none
  | _ => none

theorem percentStep_length {rest : List Nat} {v : Nat} {r : List Nat}
    (h : percentStep rest = some (v, r)) : r.length ≤ rest.length := by
  unfold percentStep at h
  repeat' split at h
  all_goals first
    | exact Option.noConfusion h
    | (cases h
       simp_all [List.length_cons]
       try omega)

/-- Fuel-driven loop of percent-decoding; the fuel bounds the number of
produced bytes and is initialized to the input length, which always
suffices since every output byte consumes at least one input byte. -/
def percentDecodeF : Nat → List Nat → List Nat
  | _, [] => []
  | 0, _ :: _ => []
  | fuel + 1, b :: rest =>
    if b = 37 then
      match percentStep rest with
      | some (v, rest2) => v :: percentDecodeF fuel rest2
      | none => 37 :: percentDecodeF fuel rest
    else b :: percentDecodeF fuel rest

/-- Byte-level percent-decoding, mirroring
`url::percent_encoding::percent_decode`: a `%` followed by two hex digits
becomes the denoted byte; otherwise the `%` passes through unchanged and
decoding continues with the next byte. -/
def percentDecode (l : List Nat) : List Nat := percentDecodeF l.length l

theorem utf8EncodeChar_ne_nil (c : Char) : utf8EncodeChar c ≠ [] := by
  rw [utf8EncodeChar]
  repeat' split
  all_goals simp

theorem utf8Encode_ne_nil {l : List Char} (h : l ≠ []) : utf8Encode l ≠ [] := by
  cases l with
  | nil => exact absurd rfl h
  | cons c rest =>
    simp only [utf8Encode, ne_eq, List.append_eq_nil, not_and]
    intro hc
    exact absurd hc (utf8EncodeChar_ne_nil c)

theorem percentDecode_ne_nil {l : List Nat} (h : l ≠ []) : percentDecode l ≠ [] := by
  cases l with
  | nil => exact absurd rfl h
  | cons b rest =>
    show percentDecodeF (b :: rest).length (b :: rest) ≠ []
    rw [List.length_cons]
    simp only [percentDecodeF]
    split
    · split <;> simp
    · simp

theorem utf8Decode_ne_nil {l : List Nat} {cs : List Char} (hl : l ≠ [])
    (h : utf8Decode l = some cs) : cs ≠ [] := by
  cases l with
  | nil => exact absurd rfl hl
  | cons b rest =>
    unfold utf8Decode at h
    rw [List.length_cons] at h
    simp only [utf8DecodeF] at h
    split at h
    · obtain ⟨cs1, hcs1, hcs2⟩ := Option.map_eq_some'.mp h
      rw [← hcs2]
      exact List.cons_ne_nil _ _
    · exact Option.noConfusion h

/-! ## The fault taxonomy (`src/errors.rs`) -/

/-- UrlFault, from `src/errors.rs`: grammar faults uplifted from
`url::ParseError` plus the four component-specific decoding faults. -/
inductive UrlFault
  | EmptyHost
  | IdnaError
  | InvalidPort
  | InvalidIpv4Address
  | InvalidIpv6Address
  | InvalidDomainCharacter
  | RelativeUrlWithoutBase
  | RelativeUrlWithCannotBeABaseUrlIsABaseUrl
  | SetHostOnCannotBeABaseUrl
  | Overflow
  | UserNameUtf8
  | PasswordUtf8
  | PathUtf8
  | FullQueryUtf8
deriving DecidableEq

/-! ## Hosts (`src/internal.rs`, `Host<T>`) -/

/-- An IPv4 address as four octet values. -/
abbrev Ipv4Addr : Type := Nat × Nat × Nat × Nat

/-- An IPv6 address as its eight 16-bit groups. -/
abbrev Ipv6Addr : Type := List Nat

/-- Host, from `src/internal.rs`: a domain name or an IP address. -/
inductive Host (T : Type)
  | Domain (d : T)
  | Ipv4 (a : Ipv4Addr)
  | Ipv6 (a : Ipv6Addr)
deriving DecidableEq

/-! ## The grammar validator model

The spec treats the grammar validator (the `url` crate) as an external,
standards-conformant collaborator (§2, §4.1): it turns raw text into a
breakdown of scheme/userinfo/host/port/path/query/fragment plus a
canonical re-serialization, or a grammar fault. The definitions below are
a model of that collaborator; the embedded `src/` code is layered on top
of them. -/

/-- Modelled from the spec: the structured breakdown the grammar
validator returns (§4.1). `username` is `""` when absent, matching
`url::Url::username`; `path` is the canonical (still percent-encoded)
path; `query` and `fragment` exclude their `?`/`#` markers. -/
structure UrlBreakdown where
  scheme : List Char
  username : List Char
  password : Option (List Char)
  host : Option (Host (List Char))
  port : Option Nat
  path : List Char
  query : Option (List Char)
  fragment : Option (List Char)
deriving DecidableEq

/-- Map a fallible function over a list, failing when any element fails. -/
def optMap (f : α → Option β) : List α → Option (List β)
  | [] => some []
  | x :: rest =>
    match f x, optMap f rest with
    | some y, some ys => some (y :: ys)
    | _, _ => none

theorem optMap_map_of_roundtrip {f : α → Option β} {g : β → α} {l : List β}
    (h : ∀ x ∈ l, f (g x) = some x) : optMap f (l.map g) = some l := by
  induction l with
  | nil => rfl
  | cons x rest ih =>
    simp only [List.map_cons, optMap]
    rw [h x (by simp), ih (fun y hy => h y (by simp [hy]))]

/-- Modelled from the spec: a character that ends the authority section
(`/`, `?` or `#`). -/
def stopChar (c : Char) : Bool := c == '/' || c == '?' || c == '#'

/-- Modelled from the spec: scheme syntax accepted by the validator — a
non-empty token starting with a letter followed by letters or digits. -/
def schemeOk : List Char → Bool
  | [] => false
  | c :: rest => isAlphaC c && rest.all (fun x => isAlphaC x || isDigitC x)

/-- Modelled from the spec: a character that may not appear in a domain
label (authority delimiters). -/
def badHostChar (c : Char) : Bool :=
  c == '@' || c == ':' || c == '/' || c == '?' || c == '#' || c == '[' || c == ']'

/-- Modelled from the spec: domain character-set validity. -/
def domainOk (d : List Char) : Bool := d.all (fun c => !badHostChar c)

/-- Modelled from the spec: whether a host string is shaped like a
dotted-quad IPv4 literal (four non-empty all-digit labels). -/
def ipv4Shape (d : List Char) : Bool :=
  (splitOnChar '.' d).length == 4 &&
    (splitOnChar '.' d).all (fun p => !p.isEmpty && p.all isDigitC)

/-- Modelled from the spec: parse a dotted-quad IPv4 literal, each octet
at most 255. -/
def parseIpv4 (d : List Char) : Option Ipv4Addr :=
  match optMap parseDec (splitOnChar '.' d) with
  | some [a, b, c, e] =>
    if a ≤ 255 ∧ b ≤ 255 ∧ c ≤ 255 ∧ e ≤ 255 then some (a, b, c, e) else none
  | _ => none

/-- Modelled from the spec: parse an (uncompressed) IPv6 literal of eight
colon-separated hexadecimal groups, each at most `0xFFFF`. The model does
not support `::` compression. -/
def parseIpv6 (inner : List Char) : Option Ipv6Addr :=
  match optMap parseHex (splitOnChar ':' inner) with
  | some gs => if gs.length = 8 ∧ ∀ g ∈ gs, g ≤ 65535 then some gs else none
  | none => none

/-- Modelled from the spec: the validator's table of scheme-default
ports; a parsed port equal to the default is normalized away. -/
def defaultPort (scheme : List Char) : Option Nat :=
  if scheme = "ftp".data then some 21
  else if scheme = "gopher".data then some 70
  else if scheme = "http".data then some 80
  else if scheme = "https".data then some 443
  else if scheme = "ws".data then some 80
  else if scheme = "wss".data then some 443
  else none

/-- Modelled from the spec: the canonical path read from the remainder
after the authority — the path when one is present, else the default
`/` (§8.5). -/
def pathOf (tail : List Char) : List Char :=
  if tail.head? = some '/' then tail.takeWhile (fun c => !(c == '?' || c == '#')) else ['/']

/-- Modelled from the spec: what follows the path. -/
def afterPath (tail : List Char) : List Char :=
  if tail.head? = some '/' then tail.dropWhile (fun c => !(c == '?' || c == '#')) else tail

/-- Modelled from the spec: the query read from the remainder after the
path (without its `?` marker). -/
def queryOf (t2 : List Char) : Option (List Char) :=
  if t2.head? = some '?' then some (t2.tail.takeWhile (fun c => !(c == '#'))) else none

/-- Modelled from the spec: what follows the query. -/
def afterQuery (t2 : List Char) : List Char :=
  if t2.head? = some '?' then t2.tail.dropWhile (fun c => !(c == '#')) else t2

/-- Modelled from the spec: the fragment (without its `#` marker). -/
def fragOf (t3 : List Char) : Option (List Char) :=
  if t3.head? = some '#' then some t3.tail else none

/-- Modelled from the spec: assemble the breakdown once authority parsing
is done — the remaining `tail` yields path (default `/` inserted when
absent, §8.5), query and fragment. -/
def finishB (scheme un : List Char) (pw : Option (List Char)) (host : Host (List Char))
    (port : Option Nat) (tail : List Char) : UrlBreakdown :=
  ⟨scheme, un, pw, some host, port, pathOf tail, queryOf (afterPath tail),
    fragOf (afterQuery (afterPath tail))⟩

/-- Modelled from the spec: parse the port digits after the host,
normalizing a scheme-default port to `none` and rejecting non-digit or
out-of-range ports. -/
def parsePortAnd (scheme un : List Char) (pw : Option (List Char)) (host : Host (List Char))
    (pr tail : List Char) : Except UrlFault UrlBreakdown :=
  if pr = [] then .ok (finishB scheme un pw host none tail)
  else
    match parseDec pr with
    | none => .error .InvalidPort
    | some n =>
      if n ≤ 65535 then
        .ok (finishB scheme un pw host (if defaultPort scheme = some n then none else some n) tail)
      else .error .InvalidPort

/-- Modelled from the spec: dispatch on an optional port string. -/
def withPortOpt (scheme un : List Char) (pw : Option (List Char)) (host : Host (List Char))
    (prOpt : Option (List Char)) (tail : List Char) : Except UrlFault UrlBreakdown :=
  match prOpt with
  | none => .ok (finishB scheme un pw host none tail)
  | some pr => parsePortAnd scheme un pw host pr tail

/-- Modelled from the spec: classify a non-bracketed host string —
ASCII-lowercase it, reject an empty host, parse a dotted-quad shape as
IPv4, and otherwise validate it as a domain. -/
def parseHostStr (scheme un : List Char) (pw : Option (List Char)) (hs : List Char)
    (prOpt : Option (List Char)) (tail : List Char) : Except UrlFault UrlBreakdown :=
  if hs.map toLowerC = [] then .error .EmptyHost
  else if ipv4Shape (hs.map toLowerC) then
    match parseIpv4 (hs.map toLowerC) with
    | some a => withPortOpt scheme un pw (.Ipv4 a) prOpt tail
    | none => .error .InvalidIpv4Address
  else if domainOk (hs.map toLowerC) then
    withPortOpt scheme un pw (.Domain (hs.map toLowerC)) prOpt tail
  else .error .InvalidDomainCharacter

/-- Modelled from the spec: parse a bracketed IPv6 host (the part after
`[`) and an optional `:port` after the closing bracket. -/
def parseBracket (scheme un : List Char) (pw : Option (List Char)) (r tail : List Char) :
    Except UrlFault UrlBreakdown :=
  match splitFirst ']' r with
  | none => .error .InvalidIpv6Address
  | some (inner, after) =>
    match parseIpv6 inner with
    | none => .error .InvalidIpv6Address
    | some addr =>
      if after = [] then .ok (finishB scheme un pw (.Ipv6 addr) none tail)
      else if after.head? = some ':' then parsePortAnd scheme un pw (.Ipv6 addr) after.tail tail
      else .error .InvalidDomainCharacter

/-- Modelled from the spec: parse the host-and-port section — a
bracketed IPv6 literal or a domain/IPv4 host, optionally followed by
`:port`. -/
def parseHostPort (scheme un : List Char) (pw : Option (List Char)) (hp tail : List Char) :
    Except UrlFault UrlBreakdown :=
  if hp.head? = some '[' then parseBracket scheme un pw hp.tail tail
  else
    match splitFirst ':' hp with
    | some (hs, pr) => parseHostStr scheme un pw hs (some pr) tail
    | none => parseHostStr scheme un pw hp none tail

/-- Modelled from the spec: split the part after `scheme://` into the
authority (up to the first `/`, `?` or `#`) and the rest, then split the
userinfo at the first `@` and the username from the password at the
first `:`. -/
def parseAfterScheme (scheme rest2 : List Char) : Except UrlFault UrlBreakdown :=
  match splitFirst '@' (rest2.takeWhile (fun c => !stopChar c)) with
  | some (ui, hp) =>
    match splitFirst ':' ui with
    | some (un, pw) =>
      parseHostPort scheme un (some pw) hp (rest2.dropWhile (fun c => !stopChar c))
    | none => parseHostPort scheme ui none hp (rest2.dropWhile (fun c => !stopChar c))
  | none =>
    parseHostPort scheme [] none (rest2.takeWhile (fun c => !stopChar c))
      (rest2.dropWhile (fun c => !stopChar c))

/-- Modelled from the spec: the grammar validator's parse
(`url::Url::parse`) restricted to absolute URLs with an authority — the
scheme is split at the first `:`, validated and lowercased, and the rest
must start with `//`. Relative references and cannot-be-a-base URLs are
outside the model and fail. -/
def urlParse (l : List Char) : Except UrlFault UrlBreakdown :=
  match splitFirst ':' l with
  | none => .error .RelativeUrlWithoutBase
  | some (schemeRaw, rest) =>
    if schemeOk schemeRaw then
      if rest.head? = some '/' ∧ rest.tail.head? = some '/' then
        parseAfterScheme (schemeRaw.map toLowerC) rest.tail.tail
      else .error .RelativeUrlWithoutBase
    else .error .RelativeUrlWithoutBase

/-- Modelled from the spec: the canonical re-serialization of a host. -/
def serializeHost : Host (List Char) → List Char
  | .Domain d => d
  | .Ipv4 (a, b, c, e) => joinSep '.' [natToDec a, natToDec b, natToDec c, natToDec e]
  | .Ipv6 gs => '[' :: (joinSep ':' (gs.map natToHex) ++ [']'])

/-- Modelled from the spec: the serialized password section (`:pass`). -/
def pwPart (pw : Option (List Char)) : List Char :=
  match pw with
  | none => []
  | some p => ':' :: p

/-- Modelled from the spec: the serialized userinfo section, ending in
`@` when non-trivial. -/
def userinfoPart (un : List Char) (pw : Option (List Char)) : List Char :=
  if un = [] ∧ pw = none then [] else un ++ pwPart pw ++ ['@']

/-- Modelled from the spec: the serialized host. -/
def hostPart (hOpt : Option (Host (List Char))) : List Char :=
  match hOpt with
  | none => []
  | some h => serializeHost h

/-- Modelled from the spec: the serialized port section (`:port`). -/
def portPart (pOpt : Option Nat) : List Char :=
  match pOpt with
  | none => []
  | some p => ':' :: natToDec p

/-- Modelled from the spec: the serialized query section (`?query`). -/
def queryPart (qOpt : Option (List Char)) : List Char :=
  match qOpt with
  | none => []
  | some q => '?' :: q

/-- Modelled from the spec: the serialized fragment section (`#frag`). -/
def fragPart (fOpt : Option (List Char)) : List Char :=
  match fOpt with
  | none => []
  | some f => '#' :: f

/-- Modelled from the spec: the canonical re-serialization of the whole
URL, as the validator computes it (`url::Url::to_string`). -/
def serializeUrl (b : UrlBreakdown) : List Char :=
  b.scheme ++ ':' :: '/' :: '/' ::
    (userinfoPart b.username b.password ++
      (hostPart b.host ++
        (portPart b.port ++ (b.path ++ (queryPart b.query ++ fragPart b.fragment)))))

/-! ## Canonical breakdowns

`Canonical b` captures the invariants the validator guarantees about
every breakdown it produces; canonical breakdowns re-serialize and
re-parse to themselves. -/

/-- Invariants of a host produced by the validator. -/
def hostCanon : Host (List Char) → Prop
  | .Domain d => d ≠ [] ∧ domainOk d = true ∧ d.map toLowerC = d ∧ ipv4Shape d = false
  | .Ipv4 (a, b, c, e) => a ≤ 255 ∧ b ≤ 255 ∧ c ≤ 255 ∧ e ≤ 255
  | .Ipv6 gs => gs.length = 8 ∧ ∀ g ∈ gs, g ≤ 65535

/-- Invariants of a breakdown produced by the validator. -/
structure Canonical (b : UrlBreakdown) : Prop where
  scheme_ok : schemeOk b.scheme = true
  scheme_lower : b.scheme.map toLowerC = b.scheme
  username_clean : ∀ c ∈ b.username, stopChar c = false ∧ c ≠ '@' ∧ c ≠ ':'
  password_clean : ∀ p, b.password = some p → ∀ c ∈ p, stopChar c = false ∧ c ≠ '@'
  host_some : b.host.isSome = true
  host_canon : ∀ h, b.host = some h → hostCanon h
  port_ok : ∀ p, b.port = some p → p ≤ 65535 ∧ defaultPort b.scheme ≠ some p
  path_shape : b.path.head? = some '/'
  path_clean : ∀ c ∈ b.path, c ≠ '?' ∧ c ≠ '#'
  query_clean : ∀ q, b.query = some q → ∀ c ∈ q, c ≠ '#'

theorem eq_cons_of_head {l : List Char} {c : Char} (h : l.head? = some c) :
    ∃ t, l = c :: t := by
  cases l with
  | nil => exact Option.noConfusion h
  | cons x t =>
    simp only [List.head?_cons, Option.some.injEq] at h
    exact ⟨t, by rw [h]⟩

theorem map_toLowerC_idem (l : List Char) :
    (l.map toLowerC).map toLowerC = l.map toLowerC := by
  induction l with
  | nil => rfl
  | cons c rest ih => simp [toLowerC_idem, ih]

theorem finishB_scheme {s u : List Char} {pw : Option (List Char)} {h : Host (List Char)}
    {pt : Option Nat} {t : List Char} : (finishB s u pw h pt t).scheme = s := rfl

theorem finishB_username {s u : List Char} {pw : Option (List Char)} {h : Host (List Char)}
    {pt : Option Nat} {t : List Char} : (finishB s u pw h pt t).username = u := rfl

theorem finishB_password {s u : List Char} {pw : Option (List Char)} {h : Host (List Char)}
    {pt : Option Nat} {t : List Char} : (finishB s u pw h pt t).password = pw := rfl

theorem finishB_host {s u : List Char} {pw : Option (List Char)} {h : Host (List Char)}
    {pt : Option Nat} {t : List Char} : (finishB s u pw h pt t).host = some h := rfl

theorem finishB_port {s u : List Char} {pw : Option (List Char)} {h : Host (List Char)}
    {pt : Option Nat} {t : List Char} : (finishB s u pw h pt t).port = pt := rfl

theorem pathOf_shape (tail : List Char) : (pathOf tail).head? = some '/' := by
  rw [pathOf]
  split
  · next hh =>
    obtain ⟨t, rfl⟩ := eq_cons_of_head hh
    rw [List.takeWhile_cons, if_pos (by decide)]
    rfl
  · rfl

theorem pathOf_clean (tail : List Char) : ∀ c ∈ pathOf tail, c ≠ '?' ∧ c ≠ '#' := by
  intro c hc
  rw [pathOf] at hc
  split at hc
  · have := mem_takeWhile hc
    simp only [Bool.not_eq_true', Bool.or_eq_false_iff, beq_eq_false_iff_ne, ne_eq] at this
    exact this
  · simp only [List.mem_singleton] at hc
    rw [hc]
    exact ⟨by decide, by decide⟩

theorem queryOf_clean (t2 : List Char) : ∀ q, queryOf t2 = some q → ∀ c ∈ q, c ≠ '#' := by
  intro q hq c hc
  rw [queryOf] at hq
  split at hq
  · cases hq
    have := mem_takeWhile hc
    simpa only [Bool.not_eq_true', beq_eq_false_iff_ne, ne_eq] using this
  · exact Option.noConfusion hq

theorem parseIpv4_ok {d : List Char} {a : Ipv4Addr} (h : parseIpv4 d = some a) :
    hostCanon (.Ipv4 a) := by
  unfold parseIpv4 at h
  repeat' split at h
  all_goals first
    | exact Option.noConfusion h
    | (cases h
       next hb => simpa [hostCanon] using hb)

theorem parseIpv6_ok {inner : List Char} {gs : Ipv6Addr} (h : parseIpv6 inner = some gs) :
    hostCanon (.Ipv6 gs) := by
  unfold parseIpv6 at h
  repeat' split at h
  all_goals first
    | exact Option.noConfusion h
    | (cases h
       next hb => simpa [hostCanon] using hb)

theorem parsePortAnd_ok {scheme un : List Char} {pw : Option (List Char)}
    {host : Host (List Char)} {pr tail : List Char} {b : UrlBreakdown}
    (h : parsePortAnd scheme un pw host pr tail = .ok b) :
    ∃ pt, b = finishB scheme un pw host pt tail ∧
      ∀ p, pt = some p → p ≤ 65535 ∧ defaultPort scheme ≠ some p := by
  unfold parsePortAnd at h
  split at h
  · cases h
    exact ⟨none, rfl, by simp⟩
  · split at h
    · exact Except.noConfusion h
    · next n =>
      split at h
      · next hn =>
        cases h
        refine ⟨_, rfl, ?_⟩
        intro p hp
        split at hp
        · exact Option.noConfusion hp
        · next hd =>
          cases hp
          exact ⟨hn, hd⟩
      · exact Except.noConfusion h

theorem withPortOpt_ok {scheme un : List Char} {pw : Option (List Char)}
    {host : Host (List Char)} {prOpt : Option (List Char)} {tail : List Char} {b : UrlBreakdown}
    (h : withPortOpt scheme un pw host prOpt tail = .ok b) :
    ∃ pt, b = finishB scheme un pw host pt tail ∧
      ∀ p, pt = some p → p ≤ 65535 ∧ defaultPort scheme ≠ some p := by
  unfold withPortOpt at h
  split at h
  · cases h
    exact ⟨none, rfl, by simp⟩
  · exact parsePortAnd_ok h

theorem parseHostStr_ok {scheme un : List Char} {pw : Option (List Char)}
    {hs : List Char} {prOpt : Option (List Char)} {tail : List Char} {b : UrlBreakdown}
    (h : parseHostStr scheme un pw hs prOpt tail = .ok b) :
    ∃ host pt, b = finishB scheme un pw host pt tail ∧ hostCanon host ∧
      ∀ p, pt = some p → p ≤ 65535 ∧ defaultPort scheme ≠ some p := by
  unfold parseHostStr at h
  split at h
  · exact Except.noConfusion h
  · next hne =>
    split at h
    · next hshape =>
      split at h
      · next a ha =>
        obtain ⟨pt, hb, hport⟩ := withPortOpt_ok h
        exact ⟨_, pt, hb, parseIpv4_ok ha, hport⟩
      · exact Except.noConfusion h
    · next hshape =>
      split at h
      · next hdom =>
        obtain ⟨pt, hb, hport⟩ := withPortOpt_ok h
        refine ⟨_, pt, hb, ?_, hport⟩
        exact ⟨hne, hdom, map_toLowerC_idem hs, Bool.not_eq_true _ ▸ (by simpa using hshape)⟩
      · exact Except.noConfusion h

theorem parseBracket_ok {scheme un : List Char} {pw : Option (List Char)}
    {r tail : List Char} {b : UrlBreakdown}
    (h : parseBracket scheme un pw r tail = .ok b) :
    ∃ host pt, b = finishB scheme un pw host pt tail ∧ hostCanon host ∧
      ∀ p, pt = some p → p ≤ 65535 ∧ defaultPort scheme ≠ some p := by
  unfold parseBracket at h
  split at h
  · exact Except.noConfusion h
  · split at h
    · exact Except.noConfusion h
    · next addr haddr =>
      split at h
      · cases h
        exact ⟨_, none, rfl, parseIpv6_ok haddr, by simp⟩
      · split at h
        · obtain ⟨pt, hb, hport⟩ := parsePortAnd_ok h
          exact ⟨_, pt, hb, parseIpv6_ok haddr, hport⟩
        · exact Except.noConfusion h

theorem parseHostPort_ok {scheme un : List Char} {pw : Option (List Char)}
    {hp tail : List Char} {b : UrlBreakdown}
    (h : parseHostPort scheme un pw hp tail = .ok b) :
    ∃ host pt, b = finishB scheme un pw host pt tail ∧ hostCanon host ∧
      ∀ p, pt = some p → p ≤ 65535 ∧ defaultPort scheme ≠ some p := by
  unfold parseHostPort at h
  split at h
  · exact parseBracket_ok h
  · split at h
    · exact parseHostStr_ok h
    · exact parseHostStr_ok h

theorem parseAfterScheme_ok {scheme rest2 : List Char} {b : UrlBreakdown}
    (h : parseAfterScheme scheme rest2 = .ok b) :
    ∃ host pt un pw tail, b = finishB scheme un pw host pt tail ∧ hostCanon host ∧
      (∀ p, pt = some p → p ≤ 65535 ∧ defaultPort scheme ≠ some p) ∧
      (∀ c ∈ un, stopChar c = false ∧ c ≠ '@' ∧ c ≠ ':') ∧
      (∀ p, pw = some p → ∀ c ∈ p, stopChar c = false ∧ c ≠ '@') := by
  unfold parseAfterScheme at h
  have hauth : ∀ c ∈ rest2.takeWhile (fun c => !stopChar c), stopChar c = false := by
    intro c hc
    have := mem_takeWhile hc
    simpa using this
  split at h
  · next ui hp hsplit =>
    obtain ⟨hui, hnotat⟩ := splitFirst_eq_some hsplit
    have hui_clean : ∀ c ∈ ui, stopChar c = false := by
      intro c hc
      exact hauth c (by rw [hui]; exact List.mem_append_left _ hc)
    split at h
    · next un pw hsplit2 =>
      obtain ⟨hun, hnotcolon⟩ := splitFirst_eq_some hsplit2
      obtain ⟨host, pt, hb, hhost, hport⟩ := parseHostPort_ok h
      refine ⟨host, pt, un, some pw, _, hb, hhost, hport, ?_, ?_⟩
      · intro c hc
        refine ⟨hui_clean c (by rw [hun]; exact List.mem_append_left _ hc), ?_, ?_⟩
        · intro he
          exact hnotat (he ▸ (by rw [hun]; exact List.mem_append_left _ hc))
        · intro he
          exact hnotcolon (he ▸ hc)
      · intro p hps c hc
        cases hps
        refine ⟨hui_clean c (by rw [hun]; simp [hc]), ?_⟩
        intro he
        exact hnotat (he ▸ (by rw [hun]; simp [hc]))
    · next hsplit2 =>
      obtain ⟨host, pt, hb, hhost, hport⟩ := parseHostPort_ok h
      have hnc := splitFirst_eq_none hsplit2
      refine ⟨host, pt, ui, none, _, hb, hhost, hport, ?_, by simp⟩
      intro c hc
      refine ⟨hui_clean c hc, ?_, ?_⟩
      · intro he
        exact hnotat (he ▸ hc)
      · intro he
        exact hnc (he ▸ hc)
  · next hsplit =>
    obtain ⟨host, pt, hb, hhost, hport⟩ := parseHostPort_ok h
    exact ⟨host, pt, [], none, _, hb, hhost, hport, by simp, by simp⟩

theorem schemeOk_map_toLowerC {s : List Char} (h : schemeOk s = true) :
    schemeOk (s.map toLowerC) = true := by
  cases s with
  | nil => exact absurd h (by simp [schemeOk])
  | cons c rest =>
    simp only [schemeOk, Bool.and_eq_true, List.all_eq_true] at h
    simp only [List.map_cons, schemeOk, Bool.and_eq_true, List.all_eq_true]
    constructor
    · rw [isAlphaC_toLowerC]
      exact h.1
    · intro x hx
      simp only [List.mem_map] at hx
      obtain ⟨y, hy, rfl⟩ := hx
      have := h.2 y hy
      simp only [Bool.or_eq_true] at this ⊢
      rcases this with hy2 | hy2
      · left
        rw [isAlphaC_toLowerC]
        exact hy2
      · right
        rw [isDigitC_toLowerC]
        exact hy2

/-- Every breakdown the model validator produces is canonical. -/
theorem urlParse_canonical {l : List Char} {b : UrlBreakdown}
    (h : urlParse l = .ok b) : Canonical b := by
  unfold urlParse at h
  split at h
  · exact Except.noConfusion h
  · next schemeRaw rest hsp =>
    split at h
    · next hok =>
      split at h
      · obtain ⟨host, pt, un, pw, tail, hb, hhost, hport, hun, hpw⟩ := parseAfterScheme_ok h
        subst hb
        constructor
        · rw [finishB_scheme]
          exact schemeOk_map_toLowerC hok
        · rw [finishB_scheme]
          exact map_toLowerC_idem schemeRaw
        · rw [finishB_username]
          exact hun
        · rw [finishB_password]
          exact hpw
        · rw [finishB_host]
          rfl
        · rw [finishB_host]
          intro h2 hh2
          cases hh2
          exact hhost
        · rw [finishB_port, finishB_scheme]
          exact hport
        · exact pathOf_shape _
        · exact pathOf_clean _
        · exact queryOf_clean _
      · exact Except.noConfusion h
    · exact Except.noConfusion h

/-! ## Round-trip support: character cleanliness -/

theorem stopChar_false_of_ne {c : Char} (h1 : c ≠ '/') (h2 : c ≠ '?') (h3 : c ≠ '#') :
    stopChar c = false := by
  simp only [stopChar, Bool.or_eq_false_iff, beq_eq_false_iff_ne, ne_eq]
  exact ⟨⟨h1, h2⟩, h3⟩

/-- Digits, letters of either case, and `.` are clean for authority
parsing: not stop characters and not authority delimiters. -/
theorem clean_chars {c : Char}
    (h : (48 ≤ c.toNat ∧ c.toNat ≤ 57) ∨ (65 ≤ c.toNat ∧ c.toNat ≤ 90) ∨
        (97 ≤ c.toNat ∧ c.toNat ≤ 122) ∨ c.toNat = 46) :
    stopChar c = false ∧ c ≠ '@' ∧ c ≠ ':' ∧ c ≠ '[' ∧ c ≠ ']' := by
  have e1 : ('/').toNat = 47 := rfl
  have e2 : ('?').toNat = 63 := rfl
  have e3 : ('#').toNat = 35 := rfl
  have e4 : ('@').toNat = 64 := rfl
  have e5 : (':').toNat = 58 := rfl
  have e6 : ('[').toNat = 91 := rfl
  have e7 : (']').toNat = 93 := rfl
  refine ⟨stopChar_false_of_ne (ne_of_toNat_ne (by omega)) (ne_of_toNat_ne (by omega))
      (ne_of_toNat_ne (by omega)),
    ne_of_toNat_ne (by omega), ne_of_toNat_ne (by omega), ne_of_toNat_ne (by omega),
    ne_of_toNat_ne (by omega)⟩

theorem clean_of_domainOk {d : List Char} (h : domainOk d = true) :
    ∀ c ∈ d, stopChar c = false ∧ c ≠ '@' ∧ c ≠ ':' ∧ c ≠ '[' ∧ c ≠ ']' := by
  intro c hc
  have hb := List.all_eq_true.mp h c hc
  simp only [Bool.not_eq_true', badHostChar, Bool.or_eq_false_iff, beq_eq_false_iff_ne,
    ne_eq] at hb
  obtain ⟨⟨⟨⟨⟨⟨hat, hcol⟩, hsl⟩, hq⟩, hh⟩, hlb⟩, hrb⟩ := hb
  exact ⟨stopChar_false_of_ne hsl hq hh, hat, hcol, hlb, hrb⟩

theorem mem_joinSep {c sep : Char} {parts : List (List Char)} (h : c ∈ joinSep sep parts) :
    c = sep ∨ ∃ p ∈ parts, c ∈ p := by
  induction parts with
  | nil => simp [joinSep] at h
  | cons p ps ih =>
    cases ps with
    | nil =>
      simp only [joinSep] at h
      exact Or.inr ⟨p, by simp, h⟩
    | cons q qs =>
      simp only [joinSep, List.mem_append, List.mem_cons] at h
      rcases h with h | h | h
      · exact Or.inr ⟨p, by simp, h⟩
      · exact Or.inl h
      · rcases ih h with h1 | ⟨r, hr, hcr⟩
        · exact Or.inl h1
        · exact Or.inr ⟨r, by simp [List.mem_cons.mp hr], hcr⟩

theorem mem_natToDec_digit {n : Nat} {c : Char} (h : c ∈ natToDec n) : isDigitC c = true :=
  List.all_eq_true.mp (natToDec_all_digit n) c h

theorem mem_natToHex_hex {n : Nat} {c : Char} (h : c ∈ natToHex n) : isHexC c = true :=
  List.all_eq_true.mp (natToHex_all_hex n) c h

theorem clean_of_digit {c : Char} (h : isDigitC c = true) :
    stopChar c = false ∧ c ≠ '@' ∧ c ≠ ':' ∧ c ≠ '[' ∧ c ≠ ']' :=
  clean_chars (Or.inl (isDigitC_toNat h))

theorem clean_of_hex {c : Char} (h : isHexC c = true) :
    stopChar c = false ∧ c ≠ '@' ∧ c ≠ ':' ∧ c ≠ '[' ∧ c ≠ ']' := by
  rcases isHexC_toNat h with h1 | h1 | h1
  · exact clean_chars (Or.inl h1)
  · exact clean_chars (Or.inr (Or.inr (Or.inl ⟨h1.1, le_trans h1.2 (by omega)⟩)))
  · exact clean_chars (Or.inr (Or.inl ⟨h1.1, le_trans h1.2 (by omega)⟩))

theorem scheme_chars {s : List Char} (h : schemeOk s = true) :
    ∀ c ∈ s, isAlphaC c = true ∨ isDigitC c = true := by
  cases s with
  | nil => exact absurd h (by simp [schemeOk])
  | cons c0 rest =>
    simp only [schemeOk, Bool.and_eq_true, List.all_eq_true] at h
    intro c hc
    rcases List.mem_cons.mp hc with rfl | hc2
    · exact Or.inl h.1
    · have := h.2 c hc2
      simpa [Bool.or_eq_true] using this

theorem clean_of_scheme {s : List Char} (h : schemeOk s = true) :
    ∀ c ∈ s, c ≠ ':' := by
  intro c hc
  rcases scheme_chars h c hc with h1 | h1
  · have h2 : (97 ≤ c.toNat ∧ c.toNat ≤ 122) ∨ (65 ≤ c.toNat ∧ c.toNat ≤ 90) := by
      simpa [isAlphaC, isLowerC, isUpperC, Bool.or_eq_true, Bool.and_eq_true,
        decide_eq_true_eq] using h1
    have e5 : (':').toNat = 58 := rfl
    exact ne_of_toNat_ne (by omega)
  · exact (clean_of_digit h1).2.2.1

theorem not_upper_of_digit_or_dot {c : Char}
    (h : isDigitC c = true ∨ c = '.') : isUpperC c = false := by
  rcases h with h | rfl
  · have := isDigitC_toNat h
    simp only [isUpperC, Bool.and_eq_false_iff, decide_eq_false_iff_not]
    left
    omega
  · rfl

theorem map_toLowerC_fix {l : List Char} (h : ∀ c ∈ l, isUpperC c = false) :
    l.map toLowerC = l := by
  induction l with
  | nil => rfl
  | cons c rest ih =>
    simp only [List.map_cons]
    rw [toLowerC_eq_of_not_upper (h c (by simp)), ih (fun x hx => h x (by simp [hx]))]

theorem head_append_of_ne_nil {l m : List Char} (h : l ≠ []) :
    (l ++ m).head? = l.head? := by
  cases l with
  | nil => exact absurd rfl h
  | cons c t => rfl

/-! ## Round-trip support: path, query and fragment -/

theorem pathOf_append {path qf : List Char} (h1 : path.head? = some '/')
    (h2 : ∀ c ∈ path, c ≠ '?' ∧ c ≠ '#')
    (h3 : qf = [] ∨ qf.head? = some '?' ∨ qf.head? = some '#') :
    pathOf (path ++ qf) = path := by
  obtain ⟨t, rfl⟩ := eq_cons_of_head h1
  rw [pathOf, if_pos (by simp)]
  have hall : ∀ c ∈ '/' :: t, (!(c == '?' || c == '#')) = true := by
    intro c hc
    have hc2 := h2 c hc
    simp [hc2.1, hc2.2]
  rw [takeWhile_append_all _ hall]
  rcases h3 with rfl | h3 | h3
  · simp
  · obtain ⟨t2, rfl⟩ := eq_cons_of_head h3
    rw [List.takeWhile_cons, if_neg (by decide)]
    simp
  · obtain ⟨t2, rfl⟩ := eq_cons_of_head h3
    rw [List.takeWhile_cons, if_neg (by decide)]
    simp

theorem afterPath_append {path qf : List Char} (h1 : path.head? = some '/')
    (h2 : ∀ c ∈ path, c ≠ '?' ∧ c ≠ '#')
    (h3 : qf = [] ∨ qf.head? = some '?' ∨ qf.head? = some '#') :
    afterPath (path ++ qf) = qf := by
  obtain ⟨t, rfl⟩ := eq_cons_of_head h1
  rw [afterPath, if_pos (by simp)]
  have hall : ∀ c ∈ '/' :: t, (!(c == '?' || c == '#')) = true := by
    intro c hc
    have hc2 := h2 c hc
    simp [hc2.1, hc2.2]
  rw [dropWhile_append_all _ hall]
  rcases h3 with rfl | h3 | h3
  · simp
  · obtain ⟨t2, rfl⟩ := eq_cons_of_head h3
    rw [List.dropWhile_cons, if_neg (by decide)]
  · obtain ⟨t2, rfl⟩ := eq_cons_of_head h3
    rw [List.dropWhile_cons, if_neg (by decide)]

theorem queryOf_qf {qOpt : Option (List Char)} {f : List Char}
    (hq : ∀ q, qOpt = some q → ∀ c ∈ q, c ≠ '#')
    (hf : f = [] ∨ f.head? = some '#') :
    queryOf (queryPart qOpt ++ f) = qOpt := by
  cases qOpt with
  | none =>
    simp only [queryPart, List.nil_append]
    rcases hf with rfl | hf
    · rfl
    · obtain ⟨t, rfl⟩ := eq_cons_of_head hf
      rw [queryOf, if_neg (by simp)]
  | some q =>
    simp only [queryPart, List.cons_append]
    rw [queryOf, if_pos (by simp)]
    simp only [List.tail_cons, Option.some.injEq]
    have hall : ∀ c ∈ q, (!(c == '#')) = true := by
      intro c hc
      simp [hq q rfl c hc]
    rw [takeWhile_append_all _ hall]
    rcases hf with rfl | hf
    · simp
    · obtain ⟨t, rfl⟩ := eq_cons_of_head hf
      rw [List.takeWhile_cons, if_neg (by decide)]
      simp

theorem afterQuery_qf {qOpt : Option (List Char)} {f : List Char}
    (hq : ∀ q, qOpt = some q → ∀ c ∈ q, c ≠ '#')
    (hf : f = [] ∨ f.head? = some '#') :
    afterQuery (queryPart qOpt ++ f) = f := by
  cases qOpt with
  | none =>
    simp only [queryPart, List.nil_append]
    rcases hf with rfl | hf
    · rfl
    · obtain ⟨t, rfl⟩ := eq_cons_of_head hf
      rw [afterQuery, if_neg (by simp)]
  | some q =>
    simp only [queryPart, List.cons_append]
    rw [afterQuery, if_pos (by simp)]
    simp only [List.tail_cons]
    have hall : ∀ c ∈ q, (!(c == '#')) = true := by
      intro c hc
      simp [hq q rfl c hc]
    rw [dropWhile_append_all _ hall]
    rcases hf with rfl | hf
    · simp
    · obtain ⟨t, rfl⟩ := eq_cons_of_head hf
      rw [List.dropWhile_cons, if_neg (by decide)]

theorem fragOf_fragPart {fOpt : Option (List Char)} : fragOf (fragPart fOpt) = fOpt := by
  cases fOpt with
  | none => rfl
  | some f => rfl

/-- On a serialized `path ++ query ++ fragment` remainder, `finishB`
reconstructs exactly the given path, query and fragment. -/
theorem finishB_tail_eq {scheme un : List Char} {pw : Option (List Char)}
    {host : Host (List Char)} {pt : Option Nat}
    {path : List Char} {qOpt fOpt : Option (List Char)}
    (hp1 : path.head? = some '/') (hp2 : ∀ c ∈ path, c ≠ '?' ∧ c ≠ '#')
    (hq : ∀ q, qOpt = some q → ∀ c ∈ q, c ≠ '#') :
    finishB scheme un pw host pt (path ++ (queryPart qOpt ++ fragPart fOpt)) =
      ⟨scheme, un, pw, some host, pt, path, qOpt, fOpt⟩ := by
  have hf : fragPart fOpt = [] ∨ (fragPart fOpt).head? = some '#' := by
    cases fOpt with
    | none => exact Or.inl rfl
    | some f => exact Or.inr rfl
  have hqf : queryPart qOpt ++ fragPart fOpt = [] ∨
      (queryPart qOpt ++ fragPart fOpt).head? = some '?' ∨
      (queryPart qOpt ++ fragPart fOpt).head? = some '#' := by
    cases qOpt with
    | none =>
      simp only [queryPart, List.nil_append]
      rcases hf with hf1 | hf1
      · exact Or.inl hf1
      · exact Or.inr (Or.inr hf1)
    | some q => exact Or.inr (Or.inl rfl)
  unfold finishB
  rw [pathOf_append hp1 hp2 hqf, afterPath_append hp1 hp2 hqf, queryOf_qf hq hf,
    afterQuery_qf hq hf, fragOf_fragPart]

/-! ## Round-trip support: host and port -/

theorem dot_not_mem_natToDec (n : Nat) : '.' ∉ natToDec n := by
  intro hm
  have hb := isDigitC_toNat (mem_natToDec_digit hm)
  have e46 : ('.').toNat = 46 := rfl
  omega

theorem colon_not_mem_natToDec (n : Nat) : ':' ∉ natToDec n := by
  intro hm
  exact (clean_of_digit (mem_natToDec_digit hm)).2.2.1 rfl

theorem colon_not_mem_natToHex (n : Nat) : ':' ∉ natToHex n := by
  intro hm
  exact (clean_of_hex (mem_natToHex_hex hm)).2.2.1 rfl

theorem rbracket_not_mem_joinSepHex (gs : List Nat) :
    ']' ∉ joinSep ':' (gs.map natToHex) := by
  intro hm
  rcases mem_joinSep hm with h | ⟨p, hp, hcp⟩
  · exact absurd h (by decide)
  · simp only [List.mem_map] at hp
    obtain ⟨g, _, rfl⟩ := hp
    exact (clean_of_hex (mem_natToHex_hex hcp)).2.2.2.2 rfl

theorem parsePortAnd_natToDec {scheme un : List Char} {pw : Option (List Char)}
    {host : Host (List Char)} {tail : List Char} {p : Nat}
    (h1 : p ≤ 65535) (h2 : defaultPort scheme ≠ some p) :
    parsePortAnd scheme un pw host (natToDec p) tail =
      .ok (finishB scheme un pw host (some p) tail) := by
  unfold parsePortAnd
  rw [if_neg (natToDec_ne_nil p)]
  simp only [parseDec_natToDec]
  rw [if_pos h1, if_neg h2]

theorem parseHostStr_domain {scheme un : List Char} {pw : Option (List Char)}
    {d : List Char} {prOpt : Option (List Char)} {tail : List Char}
    (hh : hostCanon (.Domain d)) :
    parseHostStr scheme un pw d prOpt tail = withPortOpt scheme un pw (.Domain d) prOpt tail := by
  obtain ⟨hne, hdo, hlow, hshape⟩ := hh
  unfold parseHostStr
  rw [hlow, if_neg hne, if_neg (by simp [hshape]), if_pos hdo]

theorem ipv4_parts (a b c e : Nat) :
    splitOnChar '.' (serializeHost (.Ipv4 (a, b, c, e))) =
      [natToDec a, natToDec b, natToDec c, natToDec e] := by
  show splitOnChar '.' (joinSep '.' [natToDec a, natToDec b, natToDec c, natToDec e]) = _
  apply splitOnChar_joinSep (by simp)
  intro p hp
  simp only [List.mem_cons, List.mem_singleton, List.not_mem_nil, or_false] at hp
  rcases hp with rfl | rfl | rfl | rfl <;> exact dot_not_mem_natToDec _

theorem ipv4_serial_not_upper {a b c e : Nat} {x : Char}
    (hx : x ∈ serializeHost (.Ipv4 (a, b, c, e))) : isUpperC x = false := by
  rcases mem_joinSep hx with h | ⟨p, hp, hcp⟩
  · exact not_upper_of_digit_or_dot (Or.inr h)
  · simp only [List.mem_cons, List.mem_singleton, List.not_mem_nil, or_false] at hp
    rcases hp with rfl | rfl | rfl | rfl <;>
      exact not_upper_of_digit_or_dot (Or.inl (mem_natToDec_digit hcp))

theorem ipv4_serial_ne_nil (a b c e : Nat) : serializeHost (.Ipv4 (a, b, c, e)) ≠ [] := by
  show joinSep '.' [natToDec a, natToDec b, natToDec c, natToDec e] ≠ []
  simp only [joinSep, ne_eq, List.append_eq_nil, not_and]
  intro h
  exact absurd h (natToDec_ne_nil a)

theorem parseHostStr_ipv4 {scheme un : List Char} {pw : Option (List Char)}
    {a b c e : Nat} {prOpt : Option (List Char)} {tail : List Char}
    (hh : hostCanon (.Ipv4 (a, b, c, e))) :
    parseHostStr scheme un pw (serializeHost (.Ipv4 (a, b, c, e))) prOpt tail =
      withPortOpt scheme un pw (.Ipv4 (a, b, c, e)) prOpt tail := by
  obtain ⟨h1, h2, h3, h4⟩ := hh
  have hfix : (serializeHost (.Ipv4 (a, b, c, e))).map toLowerC =
      serializeHost (.Ipv4 (a, b, c, e)) :=
    map_toLowerC_fix (fun x hx => ipv4_serial_not_upper hx)
  have hshape : ipv4Shape (serializeHost (.Ipv4 (a, b, c, e))) = true := by
    rw [ipv4Shape, ipv4_parts]
    have hd : ∀ n : Nat, (!(natToDec n).isEmpty && (natToDec n).all isDigitC) = true := by
      intro n
      cases hn : natToDec n with
      | nil => exact absurd hn (natToDec_ne_nil n)
      | cons x xs =>
        rw [Bool.and_eq_true]
        refine ⟨rfl, ?_⟩
        rw [← hn]
        exact natToDec_all_digit n
    simp [hd]
  have hp4 : parseIpv4 (serializeHost (.Ipv4 (a, b, c, e))) = some (a, b, c, e) := by
    unfold parseIpv4
    rw [ipv4_parts]
    have hmap : [natToDec a, natToDec b, natToDec c, natToDec e] =
        [a, b, c, e].map natToDec := rfl
    rw [hmap, optMap_map_of_roundtrip (fun x _ => parseDec_natToDec x)]
    simp only []
    rw [if_pos ⟨h1, h2, h3, h4⟩]
  unfold parseHostStr
  rw [hfix, if_neg (ipv4_serial_ne_nil a b c e), if_pos hshape, hp4]

theorem parseIpv6_serial {gs : List Nat} (h8 : gs.length = 8) (hb : ∀ g ∈ gs, g ≤ 65535) :
    parseIpv6 (joinSep ':' (gs.map natToHex)) = some gs := by
  have hne : gs.map natToHex ≠ [] := by
    simp only [ne_eq, List.map_eq_nil_iff]
    intro h
    rw [h] at h8
    simp at h8
  have hsp : splitOnChar ':' (joinSep ':' (gs.map natToHex)) = gs.map natToHex := by
    apply splitOnChar_joinSep hne
    intro p hp
    simp only [List.mem_map] at hp
    obtain ⟨g, _, rfl⟩ := hp
    exact colon_not_mem_natToHex g
  unfold parseIpv6
  rw [hsp, optMap_map_of_roundtrip (fun x _ => parseHex_natToHex x)]
  simp only []
  rw [if_pos ⟨h8, hb⟩]

theorem parseBracket_serial {scheme un : List Char} {pw : Option (List Char)}
    {gs : List Nat} {pt : Option Nat} {tail : List Char}
    (h8 : gs.length = 8) (hb : ∀ g ∈ gs, g ≤ 65535)
    (hp : ∀ p, pt = some p → p ≤ 65535 ∧ defaultPort scheme ≠ some p) :
    parseBracket scheme un pw (joinSep ':' (gs.map natToHex) ++ ']' :: portPart pt) tail =
      .ok (finishB scheme un pw (.Ipv6 gs) pt tail) := by
  unfold parseBracket
  rw [splitFirst_append _ (rbracket_not_mem_joinSepHex gs)]
  simp only [parseIpv6_serial h8 hb]
  cases pt with
  | none => simp [portPart]
  | some p =>
    have hp2 := hp p rfl
    simp only [portPart]
    rw [if_neg (by simp), if_pos (show (':' :: natToDec p).head? = some ':' from rfl)]
    simp only [List.tail_cons]
    exact parsePortAnd_natToDec hp2.1 hp2.2

theorem parseHostPort_serialized {scheme un : List Char} {pw : Option (List Char)}
    {host : Host (List Char)} {pt : Option Nat} {tail : List Char}
    (hh : hostCanon host)
    (hp : ∀ p, pt = some p → p ≤ 65535 ∧ defaultPort scheme ≠ some p) :
    parseHostPort scheme un pw (serializeHost host ++ portPart pt) tail =
      .ok (finishB scheme un pw host pt tail) := by
  cases host with
  | Domain d =>
    have hclean := clean_of_domainOk hh.2.1
    have hcolon : ':' ∉ d := fun hm => (hclean ':' hm).2.2.1 rfl
    cases d with
    | nil => exact absurd rfl hh.1
    | cons c0 t0 =>
      have hc0 : c0 ≠ '[' := (hclean c0 (by simp)).2.2.2.1
      unfold parseHostPort
      rw [if_neg (by
        simp only [serializeHost, List.cons_append, List.head?_cons, Option.some.injEq]
        exact hc0)]
      cases pt with
      | none =>
        simp only [portPart, List.append_nil, serializeHost]
        rw [splitFirst_not_mem hcolon]
        show parseHostStr scheme un pw (c0 :: t0) none tail = _
        rw [parseHostStr_domain hh]
        rfl
      | some p =>
        simp only [portPart, serializeHost]
        rw [splitFirst_append _ hcolon]
        show parseHostStr scheme un pw (c0 :: t0) (some (natToDec p)) tail = _
        rw [parseHostStr_domain hh]
        have hp2 := hp p rfl
        show parsePortAnd scheme un pw (.Domain (c0 :: t0)) (natToDec p) tail = _
        exact parsePortAnd_natToDec hp2.1 hp2.2
  | Ipv4 a =>
    obtain ⟨a1, a2, a3, a4⟩ := a
    have hcolon : ':' ∉ serializeHost (.Ipv4 (a1, a2, a3, a4)) := by
      intro hm
      rcases mem_joinSep hm with h | ⟨q, hq, hcq⟩
      · exact absurd h (by decide)
      · simp only [List.mem_cons, List.mem_singleton, List.not_mem_nil, or_false] at hq
        rcases hq with rfl | rfl | rfl | rfl <;> exact colon_not_mem_natToDec _ hcq
    have hhead : ¬((serializeHost (.Ipv4 (a1, a2, a3, a4)) ++ portPart pt).head? = some '[') := by
      rw [head_append_of_ne_nil (ipv4_serial_ne_nil a1 a2 a3 a4)]
      intro hm
      obtain ⟨t, ht⟩ := eq_cons_of_head hm
      have hmem : '[' ∈ serializeHost (.Ipv4 (a1, a2, a3, a4)) := by
        rw [ht]
        simp
      rcases mem_joinSep hmem with h | ⟨q, hq, hcq⟩
      · exact absurd h (by decide)
      · simp only [List.mem_cons, List.mem_singleton, List.not_mem_nil, or_false] at hq
        rcases hq with rfl | rfl | rfl | rfl <;>
          exact absurd (isDigitC_toNat (mem_natToDec_digit hcq)) (by decide)
    unfold parseHostPort
    rw [if_neg hhead]
    cases pt with
    | none =>
      simp only [portPart, List.append_nil]
      rw [splitFirst_not_mem hcolon]
      show parseHostStr scheme un pw (serializeHost (.Ipv4 (a1, a2, a3, a4))) none tail = _
      rw [parseHostStr_ipv4 hh]
      rfl
    | some p =>
      simp only [portPart]
      rw [splitFirst_append _ hcolon]
      show parseHostStr scheme un pw (serializeHost (.Ipv4 (a1, a2, a3, a4)))
        (some (natToDec p)) tail = _
      rw [parseHostStr_ipv4 hh]
      have hp2 := hp p rfl
      show parsePortAnd scheme un pw (.Ipv4 (a1, a2, a3, a4)) (natToDec p) tail = _
      exact parsePortAnd_natToDec hp2.1 hp2.2
  | Ipv6 gs =>
    have hser : serializeHost (.Ipv6 gs) ++ portPart pt =
        '[' :: (joinSep ':' (gs.map natToHex) ++ ']' :: portPart pt) := by
      show ('[' :: (joinSep ':' (gs.map natToHex) ++ [']'])) ++ portPart pt = _
      simp
    rw [hser]
    unfold parseHostPort
    rw [if_pos (show ('[' :: (joinSep ':' (gs.map natToHex) ++ ']' :: portPart pt)).head? =
      some '[' from rfl)]
    simp only [List.tail_cons]
    exact parseBracket_serial hh.1 hh.2 hp

/-! ## The round-trip theorem for the validator model -/

theorem userinfoPart_clean {un : List Char} {pw : Option (List Char)}
    (hun : ∀ c ∈ un, stopChar c = false ∧ c ≠ '@' ∧ c ≠ ':')
    (hpw : ∀ p, pw = some p → ∀ c ∈ p, stopChar c = false ∧ c ≠ '@') :
    ∀ c ∈ userinfoPart un pw, (!stopChar c) = true := by
  intro c hc
  rw [Bool.not_eq_true']
  rw [userinfoPart] at hc
  split at hc
  · simp at hc
  · simp only [List.append_assoc, List.mem_append, List.mem_singleton] at hc
    rcases hc with hc | hc | rfl
    · exact (hun c hc).1
    · cases pw with
      | none => simp [pwPart] at hc
      | some p =>
        simp only [pwPart, List.mem_cons] at hc
        rcases hc with rfl | hc
        · decide
        · exact (hpw p rfl c hc).1
    · decide

theorem at_not_mem_userinfoPart {un : List Char} {pw : Option (List Char)}
    (hun : ∀ c ∈ un, stopChar c = false ∧ c ≠ '@' ∧ c ≠ ':')
    (hpw : ∀ p, pw = some p → ∀ c ∈ p, stopChar c = false ∧ c ≠ '@') :
    '@' ∉ un ++ pwPart pw := by
  intro hm
  rcases List.mem_append.mp hm with hm | hm
  · exact (hun '@' hm).2.1 rfl
  · cases pw with
    | none => simp [pwPart] at hm
    | some p =>
      simp only [pwPart, List.mem_cons] at hm
      rcases hm with hm | hm
      · exact absurd hm (by decide)
      · exact (hpw p rfl '@' hm).2 rfl

theorem serializeHost_clean {host : Host (List Char)} (hh : hostCanon host) :
    ∀ c ∈ serializeHost host, stopChar c = false ∧ c ≠ '@' := by
  intro c hc
  cases host with
  | Domain d =>
    have h2 := clean_of_domainOk hh.2.1 c hc
    exact ⟨h2.1, h2.2.1⟩
  | Ipv4 a =>
    obtain ⟨a1, a2, a3, a4⟩ := a
    rcases mem_joinSep hc with rfl | ⟨q, hq, hcq⟩
    · exact ⟨by decide, by decide⟩
    · simp only [List.mem_cons, List.mem_singleton, List.not_mem_nil, or_false] at hq
      have hd : isDigitC c = true := by
        rcases hq with rfl | rfl | rfl | rfl <;> exact mem_natToDec_digit hcq
      have h2 := clean_of_digit hd
      exact ⟨h2.1, h2.2.1⟩
  | Ipv6 gs =>
    simp only [serializeHost, List.mem_cons, List.mem_append, List.mem_singleton] at hc
    rcases hc with rfl | hc | hc
    · exact ⟨by decide, by decide⟩
    · rcases mem_joinSep hc with rfl | ⟨q, hq, hcq⟩
      · exact ⟨by decide, by decide⟩
      · simp only [List.mem_map] at hq
        obtain ⟨g, _, rfl⟩ := hq
        have h2 := clean_of_hex (mem_natToHex_hex hcq)
        exact ⟨h2.1, h2.2.1⟩
    · rcases hc with rfl | hc
      · exact ⟨by decide, by decide⟩
      · simp at hc

theorem portPart_clean (pt : Option Nat) :
    ∀ c ∈ portPart pt, stopChar c = false ∧ c ≠ '@' := by
  intro c hc
  cases pt with
  | none => simp [portPart] at hc
  | some p =>
    simp only [portPart, List.mem_cons] at hc
    rcases hc with rfl | hc
    · exact ⟨by decide, by decide⟩
    · have h2 := clean_of_digit (mem_natToDec_digit hc)
      exact ⟨h2.1, h2.2.1⟩

/-- Round-trip of the validator model: re-parsing the canonical
serialization of any canonical breakdown reproduces it exactly. -/
theorem parse_serialize {b : UrlBreakdown} (hC : Canonical b) :
    urlParse (serializeUrl b) = .ok b := by
  obtain ⟨host, hhost⟩ := Option.isSome_iff_exists.mp hC.host_some
  have hcanon := hC.host_canon host hhost
  have hcolon : ':' ∉ b.scheme := fun hm => clean_of_scheme hC.scheme_ok ':' hm rfl
  have hsplit : splitFirst ':' (serializeUrl b) = some (b.scheme, '/' :: '/' ::
      (userinfoPart b.username b.password ++ (hostPart b.host ++ (portPart b.port ++
        (b.path ++ (queryPart b.query ++ fragPart b.fragment)))))) := by
    rw [serializeUrl]
    exact splitFirst_append _ hcolon
  unfold urlParse
  simp only [hsplit]
  rw [if_pos hC.scheme_ok, if_pos (by simp)]
  simp only [List.tail_cons]
  rw [hC.scheme_lower]
  -- the remainder after `//`
  have hHclean := serializeHost_clean hcanon
  have hPclean := portPart_clean b.port
  obtain ⟨pp, hpp⟩ := eq_cons_of_head hC.path_shape
  have htailhead : (b.path ++ (queryPart b.query ++ fragPart b.fragment)).takeWhile
      (fun c => !stopChar c) = [] := by
    rw [hpp, List.cons_append, List.takeWhile_cons, if_neg (by decide)]
  have htaildrop : (b.path ++ (queryPart b.query ++ fragPart b.fragment)).dropWhile
      (fun c => !stopChar c) = b.path ++ (queryPart b.query ++ fragPart b.fragment) := by
    rw [hpp, List.cons_append, List.dropWhile_cons, if_neg (by decide), ← List.cons_append, ← hpp]
  have hAclean := userinfoPart_clean hC.username_clean hC.password_clean
  have hHPclean : ∀ c ∈ hostPart b.host ++ portPart b.port, (!stopChar c) = true := by
    intro c hc
    rw [Bool.not_eq_true']
    rcases List.mem_append.mp hc with hc | hc
    · rw [hhost] at hc
      exact (hHclean c hc).1
    · exact (hPclean c hc).1
  have htake : (userinfoPart b.username b.password ++ (hostPart b.host ++ (portPart b.port ++
      (b.path ++ (queryPart b.query ++ fragPart b.fragment))))).takeWhile
        (fun c => !stopChar c) =
      userinfoPart b.username b.password ++ (hostPart b.host ++ portPart b.port) := by
    rw [takeWhile_append_all _ hAclean]
    rw [takeWhile_append_all _ (fun c hc => by
      rw [Bool.not_eq_true']
      rw [hhost] at hc
      exact (hHclean c hc).1)]
    rw [takeWhile_append_all _ (fun c hc => by
      rw [Bool.not_eq_true']
      exact (hPclean c hc).1)]
    rw [htailhead, List.append_nil]
  have hdrop : (userinfoPart b.username b.password ++ (hostPart b.host ++ (portPart b.port ++
      (b.path ++ (queryPart b.query ++ fragPart b.fragment))))).dropWhile
        (fun c => !stopChar c) =
      b.path ++ (queryPart b.query ++ fragPart b.fragment) := by
    rw [dropWhile_append_all _ hAclean]
    rw [dropWhile_append_all _ (fun c hc => by
      rw [Bool.not_eq_true']
      rw [hhost] at hc
      exact (hHclean c hc).1)]
    rw [dropWhile_append_all _ (fun c hc => by
      rw [Bool.not_eq_true']
      exact (hPclean c hc).1)]
    exact htaildrop
  have hhp : hostPart b.host ++ portPart b.port = serializeHost host ++ portPart b.port := by
    rw [hhost]
    rfl
  have hmain : parseHostPort b.scheme b.username b.password
      (hostPart b.host ++ portPart b.port)
      (b.path ++ (queryPart b.query ++ fragPart b.fragment)) = .ok b := by
    rw [hhp, parseHostPort_serialized hcanon hC.port_ok,
      finishB_tail_eq hC.path_shape hC.path_clean hC.query_clean]
    rw [← hhost]
  unfold parseAfterScheme
  rw [htake, hdrop]
  by_cases hui : b.username = [] ∧ b.password = none
  · rw [userinfoPart, if_pos hui, List.nil_append]
    rw [splitFirst_not_mem (fun hm => by
      rcases List.mem_append.mp hm with hm | hm
      · rw [hhost] at hm
        exact (hHclean '@' hm).2 rfl
      · exact (hPclean '@' hm).2 rfl)]
    show parseHostPort b.scheme [] none (hostPart b.host ++ portPart b.port)
      (b.path ++ (queryPart b.query ++ fragPart b.fragment)) = Except.ok b
    rw [hui.1, hui.2] at hmain
    exact hmain
  · rw [userinfoPart, if_neg hui]
    have hassoc : (b.username ++ pwPart b.password ++ ['@']) ++
        (hostPart b.host ++ portPart b.port) =
        (b.username ++ pwPart b.password) ++
          ('@' :: (hostPart b.host ++ portPart b.port)) := by
      rw [List.append_assoc (b.username ++ pwPart b.password)]
      rfl
    rw [hassoc, splitFirst_append _ (at_not_mem_userinfoPart hC.username_clean
      hC.password_clean)]
    have hcol_un : ':' ∉ b.username := fun hm => (hC.username_clean ':' hm).2.2 rfl
    cases hpw : b.password with
    | none =>
      simp only [pwPart, List.append_nil]
      rw [splitFirst_not_mem hcol_un]
      show parseHostPort b.scheme b.username none (hostPart b.host ++ portPart b.port)
        (b.path ++ (queryPart b.query ++ fragPart b.fragment)) = Except.ok b
      rw [hpw] at hmain
      exact hmain
    | some p =>
      simp only [pwPart]
      rw [splitFirst_append _ hcol_un]
      show parseHostPort b.scheme b.username (some p)
        (hostPart b.host ++ portPart b.port)
        (b.path ++ (queryPart b.query ++ fragPart b.fragment)) = Except.ok b
      rw [hpw] at hmain
      exact hmain

theorem urlParse_roundtrip {l : List Char} {b : UrlBreakdown} (h : urlParse l = .ok b) :
    urlParse (serializeUrl b) = .ok b :=
  parse_serialize (urlParse_canonical h)

/-! ## Query pairs (`url::Url::query_pairs`, form-urlencoded) -/

/-- Modelled from the spec: form-urlencoded decoding of one key or value
(§4.2.3 names "standard form-encoded pairs"): `+` becomes a space, then
percent-decoding, then lossy UTF-8 decoding. -/
def formDecode (l : List Char) : List Char :=
  utf8DecodeLossy (percentDecode (utf8Encode (l.map (fun c => if c = '+' then ' ' else c))))

/-- Modelled from the spec: the validator's form-urlencoded pair iterator
(`url::Url::query_pairs`): split the raw query on `&`, skip empty
sequences, split each pair at the first `=` (a pair without `=` is all
key with an empty value), and form-decode each side. -/
def queryPairs (q : List Char) : List (List Char × List Char) :=
  ((splitOnChar '&' q).filter (fun p => p ≠ [])).map (fun part =>
    match splitFirst '=' part with
    | some (k, v) => (formDecode k, formDecode v)
    | none => (formDecode part, []))

/-! ## The query index (`HashMap` built by `collect` in `PrivateUrl::new`) -/

/-- Insert mirroring `std::collections::HashMap::insert`: replaces the
value of an existing key, otherwise adds the pair. -/
def hmInsert (k : List Char) (v : Option (List Char)) :
    List (List Char × Option (List Char)) → List (List Char × Option (List Char))
  | [] => [(k, v)]
  | (k1, v1) :: rest => if k1 = k then (k1, v) :: rest else (k1, v1) :: hmInsert k v rest

/-- Collect a pair sequence into a map, later pairs overwriting earlier
ones — the semantics of `collect::<HashMap<_, _>>()`. -/
def hmCollect (ps : List (List Char × Option (List Char))) :
    List (List Char × Option (List Char)) :=
  ps.foldl (fun m kv => hmInsert kv.1 kv.2 m) ([] : List (List Char × Option (List Char)))

/-- Lookup mirroring `HashMap::get`. -/
def hmGet (k : List Char) :
    List (List Char × Option (List Char)) → Option (Option (List Char))
  | [] => none
  | (k1, v1) :: rest => if k1 = k then some v1 else hmGet k rest

/-- The pair sequence fed to the query index in `PrivateUrl::new`
(`src/internal.rs` lines 51–62): each `query_pairs()` value is kept when
non-empty (`value.len() != 0`) and dropped to `None` when empty. -/
def indexPairs (q : List Char) : List (List Char × Option (List Char)) :=
  (queryPairs q).map
    (fun (kv : List Char × List Char) => (kv.1, if kv.2.length ≠ 0 then some kv.2 else none))

/-- The query index built in `PrivateUrl::new` (`src/internal.rs` lines
51–62): collect the pair sequence into a `HashMap`. -/
def queryKeyValues (b : UrlBreakdown) : List (List Char × Option (List Char)) :=
  hmCollect (match b.query with
    | none => ([] : List (List Char × Option (List Char)))
    | some q => indexPairs q)

/-! ## PrivateUrl (`src/internal.rs`) -/

/-- PrivateUrl, from `src/internal.rs`: the expanded data of a parsed
URL. -/
structure PrivateUrl where
  url_data : UrlBreakdown
  string_data : List Char
  input_data : List Char
  username : Option (List Char)
  password : Option (List Char)
  path : Option (List Char)
  full_query : Option (List Char)
  query_key_values : List (List Char × Option (List Char))
deriving DecidableEq

/-- The decoding pipeline inside `boilerplate`:
`percent_decode(arg.as_bytes()).decode_utf8()`. -/
def decodeStr (s : List Char) : Option (List Char) :=
  utf8Decode (percentDecode (utf8Encode s))

/-- boilerplate, from `src/internal.rs` lines 325–346: an absent or
empty raw component (`full_details`) yields `none`; otherwise the
percent-decoded text, or the supplied fault when decoding does not yield
valid UTF-8. -/
def boilerplate (input : Option (List Char)) (err : UrlFault) :
    Option (Except UrlFault (List Char)) :=
  match input with
  | none => none
  | some s =>
    if s = [] then none
    else
      match decodeStr s with
      | none => some (.error err)
      | some t => some (.ok t)

/-- The `match` applied to each `boilerplate` call in `PrivateUrl::new`:
`None => None`, `Some(Ok(v)) => Some(v)`, `Some(Err(e)) => return Err(e)`. -/
def optField : Option (Except UrlFault (List Char)) → Except UrlFault (Option (List Char))
  | none => .ok none
  | some (.ok v) => .ok (some v)
  | some (.error e) => .error e

/-- PrivateUrl::new, from `src/internal.rs` lines 27–74: run the grammar
validator, decode username, password, path and full query in that order
(each with its own fault kind), and build the query index. -/
def PrivateUrl.new (input : List Char) : Except UrlFault PrivateUrl :=
  match urlParse input with
  | .error e => .error e
  | .ok url_data =>
    match optField (boilerplate (some url_data.username) .UserNameUtf8) with
    | .error e => .error e
    | .ok username =>
      match optField (boilerplate url_data.password .PasswordUtf8) with
      | .error e => .error e
      | .ok password =>
        match optField (boilerplate (some url_data.path) .PathUtf8) with
        | .error e => .error e
        | .ok path =>
          match optField (boilerplate url_data.query .FullQueryUtf8) with
          | .error e => .error e
          | .ok full_query =>
            .ok ⟨url_data, serializeUrl url_data, input, username, password, path,
              full_query, queryKeyValues url_data⟩

/-- get_string, from `src/internal.rs`. -/
def PrivateUrl.get_string (u : PrivateUrl) : List Char := u.string_data

/-- get_input, from `src/internal.rs`. -/
def PrivateUrl.get_input (u : PrivateUrl) : List Char := u.input_data

/-- get_scheme, from `src/internal.rs`. -/
def PrivateUrl.get_scheme (u : PrivateUrl) : List Char := u.url_data.scheme

/-- get_username, from `src/internal.rs`:
`self.username.iter().map(|arg| arg.as_ref()).next()`. -/
def PrivateUrl.get_username (u : PrivateUrl) : Option (List Char) :=
  u.username.toList.head?

/-- get_password, from `src/internal.rs`. -/
def PrivateUrl.get_password (u : PrivateUrl) : Option (List Char) :=
  u.password.toList.head?

/-- get_host, from `src/internal.rs`: clone the validator's host out of
the breakdown. -/
def PrivateUrl.get_host (u : PrivateUrl) : Option (Host (List Char)) :=
  match u.url_data.host with
  | some (.Ipv4 a) => some (.Ipv4 a)
  | some (.Ipv6 a) => some (.Ipv6 a)
  | some (.Domain d) => some (.Domain d)
  | _ => none

/-- get_port, from `src/internal.rs`. -/
def PrivateUrl.get_port (u : PrivateUrl) : Option Nat := u.url_data.port

/-- Origin, from `src/internal.rs`: scheme, host and port. -/
structure Origin where
  scheme : List Char
  host : Host (List Char)
  port : Nat
deriving DecidableEq

/-- get_origin, from `src/internal.rs` lines 143–155:
`self.get_host().into_iter().zip(self.url_data.port()).map(..).next()`. -/
def PrivateUrl.get_origin (u : PrivateUrl) : Option Origin :=
  ((u.get_host.toList.zip u.url_data.port.toList).map
    (fun hp => Origin.mk u.url_data.scheme hp.1 hp.2)).head?

/-- get_path_str, from `src/internal.rs`. -/
def PrivateUrl.get_path_str (u : PrivateUrl) : Option (List Char) :=
  u.path.toList.head?

/-- QueryData, from `src/internal.rs`: the decoded query string and the
query index. -/
structure QueryData where
  full_query : List Char
  collection : List (List Char × Option (List Char))
deriving DecidableEq

/-- get_query_info, from `src/internal.rs` lines 170–180. -/
def PrivateUrl.get_query_info (u : PrivateUrl) : Option QueryData :=
  match u.full_query with
  | none => none
  | some query => some ⟨query, u.query_key_values⟩

/-- get_full_query, from `src/internal.rs`. -/
def QueryData.get_full_query (qd : QueryData) : List Char := qd.full_query

/-- key_exists, from `src/internal.rs` lines 197–202:
`self.collection.get(key).is_some()`. -/
def QueryData.key_exists (qd : QueryData) (k : List Char) : Bool :=
  (hmGet k qd.collection).isSome

/-- get_key, from `src/internal.rs` lines 211–220: the three-way lookup. -/
def QueryData.get_key (qd : QueryData) (k : List Char) : Option (Option (List Char)) :=
  match hmGet k qd.collection with
  | none => none
  | some none => some none
  | some (some v) => some (some v)

/-- get_scheme on Origin, from `src/internal.rs`. -/
def Origin.get_scheme (o : Origin) : List Char := o.scheme

/-- get_port on Origin, from `src/internal.rs`. -/
def Origin.get_port (o : Origin) : Nat := o.port

/-- An IP address, as `std::net::IpAddr`. -/
inductive IpAddr
  | V4 (a : Ipv4Addr)
  | V6 (a : Ipv6Addr)
deriving DecidableEq

/-- A socket address, as `std::net::SocketAddr`: an IP address paired
with a port. -/
abbrev SocketAddr := IpAddr × Nat

/-- get_socket_addr, from `src/internal.rs` lines 297–306: an address
only when the host is not a domain, combined with the port. -/
def Origin.get_socket_addr (o : Origin) : Option SocketAddr :=
  ((match o.host with
    | .Domain _ => none
    | .Ipv4 a => some (IpAddr.V4 a)
    | .Ipv6 a => some (IpAddr.V6 a)).toList.map
      (fun ip => (ip, o.get_port))).head?

/-- is_domain, from `src/internal.rs`. -/
def Origin.is_domain (o : Origin) : Bool :=
  match o.host with
  | .Domain _ => true
  | _ => false

/-- get_domain, from `src/internal.rs`. -/
def Origin.get_domain (o : Origin) : Option (List Char) :=
  match o.host with
  | .Domain d => some d
  | _ => none

/-! ## The Url wrapper (`src/lib.rs`) -/

/-- Url, from `src/lib.rs`: a shared handle (`Arc<PrivateUrl>`) around a
parse result. The `alloc` field models the allocation identity that
`Arc::ptr_eq` compares; two handles alias the same allocation exactly
when their `alloc` ids agree. -/
structure Url where
  alloc : Nat
  data : PrivateUrl

/-- get_string on Url, from `src/lib.rs`. -/
def Url.get_string (u : Url) : List Char := u.data.get_string

/-- The `PartialEq` implementation for Url, from `src/lib.rs` lines
301–305: `Arc::ptr_eq(&self.data, &other.data) ||
self.get_string().eq(other.get_string())`. -/
def Url.eq (a b : Url) : Bool :=
  (a.alloc == b.alloc) || (a.get_string == b.get_string)

/-- A heap assigning to every allocation id its `PrivateUrl` contents;
a handle is valid when its `data` is what its allocation holds. Two
valid handles with the same `alloc` alias the same parse, which is what
`Arc::ptr_eq` detects. -/
def Url.valid (heap : Nat → PrivateUrl) (u : Url) : Prop := u.data = heap u.alloc

/-! ## Structural lemmas about `PrivateUrl::new` -/

theorem opt_toList_head {α : Type} (o : Option α) : o.toList.head? = o := by
  cases o <;> rfl

theorem new_ok_fields {input : List Char} {u : PrivateUrl} (h : PrivateUrl.new input = .ok u) :
    ∃ b, urlParse input = .ok b ∧
      u = ⟨b, serializeUrl b, input, u.username, u.password, u.path, u.full_query,
        queryKeyValues b⟩ ∧
      optField (boilerplate (some b.username) .UserNameUtf8) = .ok u.username ∧
      optField (boilerplate b.password .PasswordUtf8) = .ok u.password ∧
      optField (boilerplate (some b.path) .PathUtf8) = .ok u.path ∧
      optField (boilerplate b.query .FullQueryUtf8) = .ok u.full_query := by
  unfold PrivateUrl.new at h
  split at h
  · exact Except.noConfusion h
  · next b hb =>
    split at h
    · exact Except.noConfusion h
    · next un hun =>
      split at h
      · exact Except.noConfusion h
      · next pw hpw =>
        split at h
        · exact Except.noConfusion h
        · next pa hpa =>
          split at h
          · exact Except.noConfusion h
          · next fq hfq =>
            cases h
            exact ⟨b, hb, rfl, hun, hpw, hpa, hfq⟩

theorem new_ok_build {input : List Char} {b : UrlBreakdown}
    {un pw pa fq : Option (List Char)}
    (h0 : urlParse input = .ok b)
    (h1 : optField (boilerplate (some b.username) .UserNameUtf8) = .ok un)
    (h2 : optField (boilerplate b.password .PasswordUtf8) = .ok pw)
    (h3 : optField (boilerplate (some b.path) .PathUtf8) = .ok pa)
    (h4 : optField (boilerplate b.query .FullQueryUtf8) = .ok fq) :
    PrivateUrl.new input =
      .ok ⟨b, serializeUrl b, input, un, pw, pa, fq, queryKeyValues b⟩ := by
  unfold PrivateUrl.new
  simp only [h0, h1, h2, h3, h4]

/-! ## Projection helpers over a parse attempt -/

/-- The canonical string of a successful parse of `s`. -/
def newString (s : List Char) : Option (List Char) :=
  (PrivateUrl.new s).toOption.map PrivateUrl.get_string

/-- The decoded username of a successful parse of `s`. -/
def newUsername (s : List Char) : Option (Option (List Char)) :=
  (PrivateUrl.new s).toOption.map PrivateUrl.get_username

/-- The decoded password of a successful parse of `s`. -/
def newPassword (s : List Char) : Option (Option (List Char)) :=
  (PrivateUrl.new s).toOption.map PrivateUrl.get_password

/-- The decoded path of a successful parse of `s`. -/
def newPathStr (s : List Char) : Option (Option (List Char)) :=
  (PrivateUrl.new s).toOption.map PrivateUrl.get_path_str

/-- Whether a successful parse of `s` exposes query data. -/
def newHasQuery (s : List Char) : Option Bool :=
  (PrivateUrl.new s).toOption.map (fun u => u.get_query_info.isSome)

/-- The decoded full query of a successful parse of `s`. -/
def newFullQuery (s : List Char) : Option (Option (List Char)) :=
  (PrivateUrl.new s).toOption.map (fun u => u.get_query_info.map QueryData.get_full_query)

/-- The three-way query lookup of key `k` after a successful parse of
`s`; the outer layer is parse success, the next is `get_query_info`
collapsed with key absence. -/
def newGetKey (s k : List Char) : Option (Option (Option (List Char))) :=
  (PrivateUrl.new s).toOption.map (fun u =>
    match u.get_query_info with
    | none => none
    | some qd => qd.get_key k)

/-! ## C2: round-trip -/

/-- C2: for every input string on which `PrivateUrl::new` succeeds with
canonical string `t`, parsing `t` succeeds and produces the same
canonical string `t` — serializing and re-parsing is idempotent on the
canonical string. -/
theorem reparse_canonical_idempotent (s t : List Char) (h : newString s = some t) :
    newString t = some t := by
  have hex : ∃ u, PrivateUrl.new s = .ok u ∧ u.get_string = t := by
    unfold newString at h
    cases hn : PrivateUrl.new s with
    | error e =>
      rw [hn] at h
      exact Option.noConfusion h
    | ok u =>
      rw [hn] at h
      simp only [Except.toOption, Option.map_some'] at h
      exact ⟨u, rfl, Option.some.inj h⟩
  obtain ⟨u, hu, ht⟩ := hex
  obtain ⟨b, hb, hrec, h1, h2, h3, h4⟩ := new_ok_fields hu
  have hb2 := urlParse_roundtrip hb
  have hnew2 := new_ok_build hb2 h1 h2 h3 h4
  have hts : t = serializeUrl b := by
    rw [← ht]
    exact congrArg PrivateUrl.string_data hrec
  unfold newString
  rw [hts, hnew2]
  rfl

/-- Witness for C2 at `http://www.google.com`, whose canonical string
gains the default `/` path. -/
theorem reparse_canonical_witness :
    newString ("http://www.google.com").data = some ("http://www.google.com/").data ∧
    newString ("http://www.google.com/").data = some ("http://www.google.com/").data :=
  ⟨by decide,
    reparse_canonical_idempotent ("http://www.google.com").data
      ("http://www.google.com/").data (by decide)⟩

/-! ## C3: equality of wrapped values -/

/-- C3: for any two handles valid for a common heap — so that equal
allocation ids really mean aliasing the same parse, as `Arc::ptr_eq`
does — the `PartialEq` of `Url` returns `true` exactly when the
canonical strings agree; the pointer fast path never diverges from
canonical-string equality. -/
theorem url_eq_iff_string_eq (heap : Nat → PrivateUrl) (a b : Url)
    (ha : Url.valid heap a) (hb : Url.valid heap b) :
    Url.eq a b = true ↔ a.get_string = b.get_string := by
  unfold Url.eq
  constructor
  · intro h
    simp only [Bool.or_eq_true] at h
    rcases h with h1 | h1
    · have h2 : a.alloc = b.alloc := eq_of_beq h1
      unfold Url.valid at ha hb
      unfold Url.get_string PrivateUrl.get_string
      rw [ha, hb, h2]
    · exact eq_of_beq h1
  · intro h
    simp only [Bool.or_eq_true]
    right
    exact beq_iff_eq.mpr h

/-- An arbitrary concrete `PrivateUrl` record used to instantiate
heap-validity hypotheses. -/
def somePU : PrivateUrl :=
  ⟨⟨[], [], none, none, none, [], none, none⟩, [], [], none, none, none, none, []⟩

/-- Witness for C3: two distinct handles aliasing the same contents
compare equal. -/
theorem url_eq_witness :
    Url.eq ⟨0, somePU⟩ ⟨1, somePU⟩ = true ∧ Url.valid (fun _ => somePU) ⟨0, somePU⟩ :=
  ⟨(url_eq_iff_string_eq (fun _ => somePU) ⟨0, somePU⟩ ⟨1, somePU⟩ rfl rfl).mpr rfl, rfl⟩

/-! ## C6: origin presence -/

/-- C6: `get_origin` yields a value exactly when both `get_host` and
`get_port` do; in particular a URL with a host but no port has no
origin. -/
theorem origin_iff_host_and_port (u : PrivateUrl) :
    u.get_origin.isSome = (u.get_host.isSome && u.get_port.isSome) ∧
    (u.get_host.isSome = true → u.get_port = none → u.get_origin = none) := by
  unfold PrivateUrl.get_origin PrivateUrl.get_host PrivateUrl.get_port
  cases hh : u.url_data.host with
  | none => cases hp : u.url_data.port <;> simp
  | some h =>
    cases h <;> cases hp : u.url_data.port <;> simp [Option.toList]

/-- The parse of `http://www.google.com/`: a host but no port. -/
def uNoPort : PrivateUrl :=
  ⟨⟨("http").data, [], none, some (.Domain ("www.google.com").data), none, ("/").data,
      none, none⟩,
    ("http://www.google.com/").data, ("http://www.google.com/").data,
    none, none, some ("/").data, none, []⟩

/-- Witness for C6 at `http://www.google.com/`: the host is present, the
port is absent, and accordingly there is no origin. -/
theorem origin_witness :
    uNoPort.get_host.isSome = true ∧ uNoPort.get_port = none ∧
    uNoPort.get_origin = none :=
  ⟨by decide, by decide, (origin_iff_host_and_port uNoPort).2 (by decide) (by decide)⟩

/-! ## C9: socket addresses only for IP hosts -/

/-- C9: `get_socket_addr` returns a socket address combining the IP
address with the origin's port exactly when the host is an IP literal,
and always `none` for a domain host. -/
theorem socket_addr_iff_ip_host (o : Origin) :
    (o.is_domain = true → o.get_socket_addr = none) ∧
    (∀ a, o.host = .Ipv4 a → o.get_socket_addr = some (IpAddr.V4 a, o.get_port)) ∧
    (∀ a, o.host = .Ipv6 a → o.get_socket_addr = some (IpAddr.V6 a, o.get_port)) ∧
    o.get_socket_addr.isSome = !o.is_domain := by
  obtain ⟨sc, h, pt⟩ := o
  cases h <;> simp [Origin.get_socket_addr, Origin.is_domain, Origin.get_port]

/-- Witness for C9: a domain origin has no socket address; an IPv4
origin pairs its address with the port. -/
theorem socket_addr_witness :
    (Origin.mk ("http").data (.Domain ("g").data) 80).get_socket_addr = none ∧
    (Origin.mk ("http").data (.Ipv4 (192, 168, 0, 1)) 8080).get_socket_addr =
      some (IpAddr.V4 (192, 168, 0, 1), 8080) :=
  ⟨(socket_addr_iff_ip_host _).1 rfl, (socket_addr_iff_ip_host _).2.1 _ rfl⟩

/-! ## Map lemmas for the query index -/

/-- Left-biased choice on options. -/
def orO {α : Type} (x y : Option α) : Option α :=
  match x with
  | some v => some v
  | none => y

theorem orO_none_right {α : Type} (x : Option α) : orO x none = x := by
  cases x <;> rfl

theorem hmGet_insert (k k2 : List Char) (v : Option (List Char))
    (m : List (List Char × Option (List Char))) :
    hmGet k2 (hmInsert k v m) = if k = k2 then some v else hmGet k2 m := by
  induction m with
  | nil =>
    simp only [hmInsert, hmGet]
  | cons p rest ih =>
    obtain ⟨k1, v1⟩ := p
    simp only [hmInsert]
    by_cases h1 : k1 = k
    · subst h1
      simp only [if_pos rfl, hmGet]
      by_cases h2 : k1 = k2
      · rw [if_pos h2, if_pos h2]
      · rw [if_neg h2, if_neg h2, if_neg h2]
    · rw [if_neg h1]
      simp only [hmGet]
      by_cases h2 : k1 = k2
      · subst h2
        rw [if_pos rfl, if_neg (fun he => h1 he.symm), if_pos rfl]
      · rw [if_neg h2, if_neg h2, ih]

theorem hmInsert_keys_mem {k x : List Char} {v : Option (List Char)}
    {m : List (List Char × Option (List Char))}
    (h : x ∈ (hmInsert k v m).map Prod.fst) : x = k ∨ x ∈ m.map Prod.fst := by
  induction m with
  | nil =>
    simp only [hmInsert, List.map_cons, List.map_nil, List.mem_singleton] at h
    exact Or.inl h
  | cons p rest ih =>
    obtain ⟨k1, v1⟩ := p
    simp only [hmInsert] at h
    split at h
    · simp only [List.map_cons, List.mem_cons] at h
      rcases h with rfl | h
      · exact Or.inr (by simp)
      · exact Or.inr (by simp [h])
    · simp only [List.map_cons, List.mem_cons] at h
      rcases h with rfl | h
      · exact Or.inr (by simp)
      · rcases ih h with h2 | h2
        · exact Or.inl h2
        · exact Or.inr (by simp [h2])

theorem hmInsert_keys_nodup {k : List Char} {v : Option (List Char)}
    {m : List (List Char × Option (List Char))}
    (h : (m.map Prod.fst).Nodup) : ((hmInsert k v m).map Prod.fst).Nodup := by
  induction m with
  | nil => simp [hmInsert]
  | cons p rest ih =>
    obtain ⟨k1, v1⟩ := p
    simp only [List.map_cons, List.nodup_cons] at h
    simp only [hmInsert]
    split
    · simp only [List.map_cons, List.nodup_cons]
      exact h
    · next hne =>
      simp only [List.map_cons, List.nodup_cons]
      refine ⟨?_, ih h.2⟩
      intro hmem
      rcases hmInsert_keys_mem hmem with h2 | h2
      · exact hne h2
      · exact h.1 h2

theorem hmCollect_aux_nodup (ps : List (List Char × Option (List Char))) :
    ∀ m, (m.map Prod.fst).Nodup →
      ((ps.foldl (fun m kv => hmInsert kv.1 kv.2 m) m).map Prod.fst).Nodup := by
  induction ps with
  | nil => exact fun m h => h
  | cons p rest ih =>
    intro m h
    exact ih _ (hmInsert_keys_nodup h)

theorem hmCollect_nodup (ps : List (List Char × Option (List Char))) :
    ((hmCollect ps).map Prod.fst).Nodup :=
  hmCollect_aux_nodup ps [] (by simp)

theorem hmGet_none_iff {k : List Char} {m : List (List Char × Option (List Char))} :
    hmGet k m = none ↔ ∀ v, (k, v) ∉ m := by
  induction m with
  | nil => simp [hmGet]
  | cons p rest ih =>
    obtain ⟨k1, v1⟩ := p
    simp only [hmGet]
    by_cases h1 : k1 = k
    · subst h1
      rw [if_pos rfl]
      constructor
      · intro h
        exact Option.noConfusion h
      · intro h
        exact absurd (by simp : (k1, v1) ∈ (k1, v1) :: rest) (h v1)
    · rw [if_neg h1, ih]
      constructor
      · intro h v hv
        rcases List.mem_cons.mp hv with h2 | h2
        · exact h1 (congrArg Prod.fst h2).symm
        · exact h v h2
      · intro h v hv
        exact h v (List.mem_cons_of_mem _ hv)

theorem hmGet_some_iff {k : List Char} {v : Option (List Char)}
    {m : List (List Char × Option (List Char))}
    (hnd : (m.map Prod.fst).Nodup) : hmGet k m = some v ↔ (k, v) ∈ m := by
  induction m with
  | nil => simp [hmGet]
  | cons p rest ih =>
    obtain ⟨k1, v1⟩ := p
    simp only [List.map_cons, List.nodup_cons] at hnd
    simp only [hmGet]
    by_cases h1 : k1 = k
    · subst h1
      rw [if_pos rfl]
      constructor
      · intro h
        rw [Option.some.inj h]
        simp
      · intro h
        rcases List.mem_cons.mp h with h2 | h2
        · rw [(Prod.mk.injEq _ _ _ _).mp h2.symm |>.2]
        · exact absurd (by simpa using List.mem_map_of_mem Prod.fst h2) hnd.1
    · rw [if_neg h1, ih hnd.2]
      constructor
      · intro h
        exact List.mem_cons_of_mem _ h
      · intro h
        rcases List.mem_cons.mp h with h2 | h2
        · exact absurd (congrArg Prod.fst h2).symm h1
        · exact h2

theorem hmGet_append (k : List Char) (xs ys : List (List Char × Option (List Char))) :
    hmGet k (xs ++ ys) = orO (hmGet k xs) (hmGet k ys) := by
  induction xs with
  | nil => simp [hmGet, orO]
  | cons p rest ih =>
    obtain ⟨k1, v1⟩ := p
    simp only [List.cons_append, hmGet, List.append_eq]
    by_cases h1 : k1 = k
    · rw [if_pos h1, if_pos h1]
      rfl
    · rw [if_neg h1, if_neg h1, ih]

theorem hmGet_foldl (ps : List (List Char × Option (List Char))) (k : List Char) :
    ∀ m, hmGet k (ps.foldl (fun m kv => hmInsert kv.1 kv.2 m) m) =
      orO (hmGet k ps.reverse) (hmGet k m) := by
  induction ps with
  | nil =>
    intro m
    simp [hmGet, orO]
  | cons p rest ih =>
    obtain ⟨a, v⟩ := p
    intro m
    simp only [List.foldl_cons, List.reverse_cons]
    rw [ih (hmInsert a v m), hmGet_append, hmGet_insert]
    cases hx : hmGet k rest.reverse with
    | some w => rfl
    | none =>
      simp only [orO, hmGet]
      by_cases ha : a = k
      · rw [if_pos ha, if_pos ha]
      · rw [if_neg ha, if_neg ha]

theorem hmGet_collect (ps : List (List Char × Option (List Char))) (k : List Char) :
    hmGet k (hmCollect ps) = hmGet k ps.reverse := by
  have h := hmGet_foldl ps k []
  rw [hmCollect]
  rw [h]
  show orO (hmGet k ps.reverse) none = _
  exact orO_none_right _

deriving instance DecidableEq for Except

/-! ## C4: component-specific decoding faults -/

/-- Whether a raw component would make its `boilerplate` call fail:
present, non-empty, and its percent-decode is not valid UTF-8. -/
def compFails (x : Option (List Char)) : Bool :=
  match x with
  | none => false
  | some s => !s.isEmpty && (decodeStr s).isNone

theorem optField_fail {x : Option (List Char)} {e : UrlFault} (h : compFails x = true) :
    optField (boilerplate x e) = .error e := by
  cases x with
  | none => simp [compFails] at h
  | some s =>
    simp only [compFails, Bool.and_eq_true, Bool.not_eq_true',
      Option.isNone_iff_eq_none] at h
    simp only [boilerplate]
    rw [if_neg (by
      intro he
      rw [he] at h
      simp at h)]
    rw [h.2]
    rfl

theorem optField_ok {x : Option (List Char)} {e : UrlFault} (h : compFails x = false) :
    ∃ v, optField (boilerplate x e) = .ok v := by
  cases x with
  | none => exact ⟨none, rfl⟩
  | some s =>
    by_cases hs : s = []
    · refine ⟨none, ?_⟩
      simp only [boilerplate]
      rw [if_pos hs]
      rfl
    · simp only [compFails, Bool.and_eq_false_iff, Bool.not_eq_false,
        Option.isNone_eq_false_iff] at h
      rcases h with h | h
      · exact absurd (List.isEmpty_iff.mp (by simpa using h)) hs
      · obtain ⟨t, ht⟩ := Option.isSome_iff_exists.mp h
        refine ⟨some t, ?_⟩
        simp only [boilerplate]
        rw [if_neg hs, ht]
        rfl

/-- C4: with a successful grammar parse, each of the four decoded
components fails with its own fault kind — `UserNameUtf8`,
`PasswordUtf8`, `PathUtf8`, `FullQueryUtf8` — when its percent-decode
does not yield valid text (earlier components decode first, so their
faults take precedence). -/
theorem component_decode_faults (s : List Char) (b : UrlBreakdown)
    (h : urlParse s = .ok b) :
    (compFails (some b.username) = true → PrivateUrl.new s = .error .UserNameUtf8) ∧
    (compFails (some b.username) = false → compFails b.password = true →
      PrivateUrl.new s = .error .PasswordUtf8) ∧
    (compFails (some b.username) = false → compFails b.password = false →
      compFails (some b.path) = true → PrivateUrl.new s = .error .PathUtf8) ∧
    (compFails (some b.username) = false → compFails b.password = false →
      compFails (some b.path) = false → compFails b.query = true →
      PrivateUrl.new s = .error .FullQueryUtf8) := by
  refine ⟨?_, ?_, ?_, ?_⟩
  · intro h1
    unfold PrivateUrl.new
    simp only [h, optField_fail h1]
  · intro h1 h2
    obtain ⟨v1, hv1⟩ := optField_ok (e := .UserNameUtf8) h1
    unfold PrivateUrl.new
    simp only [h, hv1, optField_fail h2]
  · intro h1 h2 h3
    obtain ⟨v1, hv1⟩ := optField_ok (e := .UserNameUtf8) h1
    obtain ⟨v2, hv2⟩ := optField_ok (e := .PasswordUtf8) h2
    unfold PrivateUrl.new
    simp only [h, hv1, hv2, optField_fail h3]
  · intro h1 h2 h3 h4
    obtain ⟨v1, hv1⟩ := optField_ok (e := .UserNameUtf8) h1
    obtain ⟨v2, hv2⟩ := optField_ok (e := .PasswordUtf8) h2
    obtain ⟨v3, hv3⟩ := optField_ok (e := .PathUtf8) h3
    unfold PrivateUrl.new
    simp only [h, hv1, hv2, hv3, optField_fail h4]

/-- The grammar breakdown of `http://%ff@h/`. -/
def bBadUser : UrlBreakdown :=
  ⟨("http").data, ("%ff").data, none, some (.Domain ("h").data), none, ("/").data,
    none, none⟩

/-- The grammar breakdown of `http://u:%ff@h/`. -/
def bBadPass : UrlBreakdown :=
  ⟨("http").data, ("u").data, some ("%ff").data, some (.Domain ("h").data), none,
    ("/").data, none, none⟩

/-- The grammar breakdown of `http://h/%ff`. -/
def bBadPath : UrlBreakdown :=
  ⟨("http").data, [], none, some (.Domain ("h").data), none, ("/%ff").data, none, none⟩

/-- The grammar breakdown of `http://h/p?%ff`. -/
def bBadQuery : UrlBreakdown :=
  ⟨("http").data, [], none, some (.Domain ("h").data), none, ("/p").data,
    some ("%ff").data, none⟩

/-- Witness for C4: a `%ff` escape in each component produces that
component's fault. -/
theorem component_decode_faults_witness :
    PrivateUrl.new ("http://%ff@h/").data = .error .UserNameUtf8 ∧
    PrivateUrl.new ("http://u:%ff@h/").data = .error .PasswordUtf8 ∧
    PrivateUrl.new ("http://h/%ff").data = .error .PathUtf8 ∧
    PrivateUrl.new ("http://h/p?%ff").data = .error .FullQueryUtf8 :=
  ⟨(component_decode_faults ("http://%ff@h/").data bBadUser (by decide)).1 (by decide),
    (component_decode_faults ("http://u:%ff@h/").data bBadPass (by decide)).2.1
      (by decide) (by decide),
    (component_decode_faults ("http://h/%ff").data bBadPath (by decide)).2.2.1
      (by decide) (by decide) (by decide),
    (component_decode_faults ("http://h/p?%ff").data bBadQuery (by decide)).2.2.2
      (by decide) (by decide) (by decide) (by decide)⟩

/-! ## C5: present-but-empty raw components are absent -/

/-- C5: when the raw (still percent-encoded) username, password, path or
full query is present but empty, the corresponding accessor of the
parsed value returns `none`, not an empty decoded value. -/
theorem empty_raw_components_absent (s : List Char) (b : UrlBreakdown) (u : PrivateUrl)
    (hb : urlParse s = .ok b) (hu : PrivateUrl.new s = .ok u) :
    (b.username = [] → u.get_username = none) ∧
    (b.password = some [] → u.get_password = none) ∧
    (b.path = [] → u.get_path_str = none) ∧
    (b.query = some [] → u.get_query_info = none) := by
  obtain ⟨b2, hb2, hrec, h1, h2, h3, h4⟩ := new_ok_fields hu
  rw [hb] at hb2
  have hbb : b2 = b := (Except.ok.inj hb2).symm
  subst hbb
  refine ⟨?_, ?_, ?_, ?_⟩
  · intro he
    rw [he] at h1
    have h5 : u.username = none := (Except.ok.inj h1).symm
    unfold PrivateUrl.get_username
    rw [h5]
    rfl
  · intro he
    rw [he] at h2
    have h5 : u.password = none := (Except.ok.inj h2).symm
    unfold PrivateUrl.get_password
    rw [h5]
    rfl
  · intro he
    rw [he] at h3
    have h5 : u.path = none := (Except.ok.inj h3).symm
    unfold PrivateUrl.get_path_str
    rw [h5]
    rfl
  · intro he
    rw [he] at h4
    have h5 : u.full_query = none := (Except.ok.inj h4).symm
    unfold PrivateUrl.get_query_info
    rw [h5]

/-- The grammar breakdown of `http://u:@h/?` — empty password and empty
query present. -/
def bEmptyComp : UrlBreakdown :=
  ⟨("http").data, ("u").data, some [], some (.Domain ("h").data), none, ("/").data,
    some [], none⟩

/-- The parse of `http://u:@h/?`. -/
def uEmptyComp : PrivateUrl :=
  ⟨bEmptyComp, ("http://u:@h/?").data, ("http://u:@h/?").data, some ("u").data, none,
    some ("/").data, none, []⟩

/-- Witness for C5: `http://u:@h/?` has a present-but-empty password and
query, and both accessors return `none`. -/
theorem empty_raw_components_witness :
    bEmptyComp.password = some [] ∧ uEmptyComp.get_password = none ∧
    bEmptyComp.query = some [] ∧ uEmptyComp.get_query_info = none :=
  ⟨rfl,
    (empty_raw_components_absent ("http://u:@h/?").data bEmptyComp uEmptyComp
      (by decide) (by decide)).2.1 rfl,
    rfl,
    (empty_raw_components_absent ("http://u:@h/?").data bEmptyComp uEmptyComp
      (by decide) (by decide)).2.2.2 rfl⟩

/-! ## C10: decoded components are never empty -/

theorem boilerplate_ok_ne_nil {x : Option (List Char)} {e : UrlFault} {v : List Char}
    (h : optField (boilerplate x e) = .ok (some v)) : v ≠ [] := by
  cases x with
  | none =>
    have h2 : (none : Option (List Char)) = some v := Except.ok.inj h
    exact Option.noConfusion h2
  | some s =>
    simp only [boilerplate] at h
    by_cases hs : s = []
    · rw [if_pos hs] at h
      exact Option.noConfusion (Except.ok.inj h)
    · rw [if_neg hs] at h
      cases hd : decodeStr s with
      | none =>
        rw [hd] at h
        exact Except.noConfusion (show Except.error e = Except.ok (some v) from h)
      | some t =>
        rw [hd] at h
        have ht : some t = some v := Except.ok.inj h
        rw [← Option.some.inj ht]
        unfold decodeStr at hd
        exact utf8Decode_ne_nil (percentDecode_ne_nil (utf8Encode_ne_nil hs)) hd

/-- C10: no decoded component of a successfully parsed URL is the empty
string — the empty-raw filter plus percent-decoding (which maps
non-empty input to non-empty output) preserve non-emptiness, so each
accessor yields either `none` or a non-empty decoded value. -/
theorem decoded_components_nonempty (s : List Char) (u : PrivateUrl)
    (h : PrivateUrl.new s = .ok u) :
    (∀ x, u.get_username = some x → x ≠ []) ∧
    (∀ x, u.get_password = some x → x ≠ []) ∧
    (∀ x, u.get_path_str = some x → x ≠ []) ∧
    (∀ qd, u.get_query_info = some qd → qd.get_full_query ≠ []) := by
  obtain ⟨b, hb, hrec, h1, h2, h3, h4⟩ := new_ok_fields h
  refine ⟨?_, ?_, ?_, ?_⟩
  · intro x hx
    unfold PrivateUrl.get_username at hx
    rw [opt_toList_head] at hx
    rw [hx] at h1
    exact boilerplate_ok_ne_nil h1
  · intro x hx
    unfold PrivateUrl.get_password at hx
    rw [opt_toList_head] at hx
    rw [hx] at h2
    exact boilerplate_ok_ne_nil h2
  · intro x hx
    unfold PrivateUrl.get_path_str at hx
    rw [opt_toList_head] at hx
    rw [hx] at h3
    exact boilerplate_ok_ne_nil h3
  · intro qd hqd
    unfold PrivateUrl.get_query_info at hqd
    cases hfq : u.full_query with
    | none =>
      rw [hfq] at hqd
      exact Option.noConfusion hqd
    | some q =>
      rw [hfq] at hqd
      rw [hfq] at h4
      have hq := boilerplate_ok_ne_nil h4
      rw [← Option.some.inj hqd]
      exact hq

/-- The grammar breakdown of `ftp://webmaster@www.google.com/`. -/
def bCreds : UrlBreakdown :=
  ⟨("ftp").data, ("webmaster").data, none, some (.Domain ("www.google.com").data), none,
    ("/").data, none, none⟩

/-- The parse of `ftp://webmaster@www.google.com/`. -/
def uCreds : PrivateUrl :=
  ⟨bCreds, ("ftp://webmaster@www.google.com/").data, ("ftp://webmaster@www.google.com/").data,
    some ("webmaster").data, none, some ("/").data, none, []⟩

/-- Witness for C10 at `ftp://webmaster@www.google.com/`: the username
and path present are non-empty. -/
theorem decoded_components_nonempty_witness :
    uCreds.get_username = some ("webmaster").data ∧ ("webmaster").data ≠ ([] : List Char) ∧
    uCreds.get_path_str = some ("/").data ∧ ("/").data ≠ ([] : List Char) :=
  ⟨by decide,
    (decoded_components_nonempty ("ftp://webmaster@www.google.com/").data uCreds
      (by decide)).1 ("webmaster").data (by decide),
    by decide,
    (decoded_components_nonempty ("ftp://webmaster@www.google.com/").data uCreds
      (by decide)).2.2.1 ("/").data (by decide)⟩

/-! ## C7: the three-way query lookup -/

theorem get_key_eq_hmGet (qd : QueryData) (k : List Char) :
    qd.get_key k = hmGet k qd.collection := by
  unfold QueryData.get_key
  cases h : hmGet k qd.collection with
  | none => rfl
  | some v => cases v <;> rfl

/-- C7: the per-key query lookup is genuinely three-way — `none` exactly
when the key is absent from the index, `some v` exactly when the pair
`(k, v)` is in the index (so `some none` is "present with no value" and
`some (some x)` is "present with value `x`"), and `key_exists` agrees
with non-absence. -/
theorem query_lookup_three_way (s : List Char) (u : PrivateUrl) (qd : QueryData)
    (k : List Char) (hu : PrivateUrl.new s = .ok u) (hq : u.get_query_info = some qd) :
    (qd.get_key k = none ↔ ∀ v, (k, v) ∉ qd.collection) ∧
    (∀ v, qd.get_key k = some v ↔ (k, v) ∈ qd.collection) ∧
    (qd.key_exists k = true ↔ qd.get_key k ≠ none) := by
  obtain ⟨b, hb, hrec, h1, h2, h3, h4⟩ := new_ok_fields hu
  have hcoll : qd.collection = u.query_key_values := by
    unfold PrivateUrl.get_query_info at hq
    cases hfq : u.full_query with
    | none =>
      rw [hfq] at hq
      exact Option.noConfusion hq
    | some q =>
      rw [hfq] at hq
      rw [← Option.some.inj hq]
  have hqkv : u.query_key_values = queryKeyValues b := congrArg PrivateUrl.query_key_values hrec
  have hnd : (qd.collection.map Prod.fst).Nodup := by
    rw [hcoll, hqkv]
    unfold queryKeyValues
    exact hmCollect_nodup _
  refine ⟨?_, ?_, ?_⟩
  · rw [get_key_eq_hmGet]
    exact hmGet_none_iff
  · intro v
    rw [get_key_eq_hmGet]
    exact hmGet_some_iff hnd
  · unfold QueryData.key_exists
    rw [get_key_eq_hmGet, Option.isSome_iff_ne_none]

/-- The grammar breakdown of `http://h/?a=1+2&b=&c=x`. -/
def bQueryEx : UrlBreakdown :=
  ⟨("http").data, [], none, some (.Domain ("h").data), none, ("/").data,
    some ("a=1+2&b=&c=x").data, none⟩

/-- The parse of `http://h/?a=1+2&b=&c=x`. -/
def uQueryEx : PrivateUrl :=
  ⟨bQueryEx, ("http://h/?a=1+2&b=&c=x").data, ("http://h/?a=1+2&b=&c=x").data, none, none,
    some ("/").data, some ("a=1+2&b=&c=x").data,
    [(("a").data, some ("1 2").data), (("b").data, none), (("c").data, some ("x").data)]⟩

/-- The query data of `http://h/?a=1+2&b=&c=x`. -/
def qdQueryEx : QueryData :=
  ⟨("a=1+2&b=&c=x").data,
    [(("a").data, some ("1 2").data), (("b").data, none), (("c").data, some ("x").data)]⟩

/-- Witness for C7 at `http://h/?a=1+2&b=&c=x`: looking up `b` yields
present-with-no-value, which differs from the absent result for `zz`. -/
theorem query_lookup_three_way_witness :
    qdQueryEx.get_key ("b").data = some none ∧
    qdQueryEx.get_key ("zz").data = none ∧
    (some (none : Option (List Char)) ≠ (none : Option (Option (List Char)))) :=
  ⟨((query_lookup_three_way ("http://h/?a=1+2&b=&c=x").data uQueryEx qdQueryEx ("b").data
      (by decide) (by decide)).2.1 none).mpr (by decide),
    by decide, by decide⟩

/-! ## C8: duplicate keys and last-write-wins -/

/-- C8: when the raw query contains two or more pairs with the same key,
the collected index answers lookups with the value of the last such pair
(`hmGet` over the reversed pair sequence finds the last occurrence), and
the index holds each key at most once. -/
theorem duplicate_keys_last_write_wins (q k : List Char)
    (_hdup : 2 ≤ ((indexPairs q).map Prod.fst).count k) :
    hmGet k (hmCollect (indexPairs q)) = hmGet k (indexPairs q).reverse ∧
    ((hmCollect (indexPairs q)).map Prod.fst).Nodup :=
  ⟨hmGet_collect _ _, hmCollect_nodup _⟩

/-- Witness for C8 at raw query `a=1&a=2`: the index answers `a` with
the later value `2` and holds the key once. -/
theorem duplicate_keys_witness :
    hmGet ("a").data (hmCollect (indexPairs ("a=1&a=2").data)) = some (some ("2").data) ∧
    ((hmCollect (indexPairs ("a=1&a=2").data)).map Prod.fst).Nodup := by
  have h := duplicate_keys_last_write_wins ("a=1&a=2").data ("a").data (by decide)
  exact ⟨h.1.trans (by decide), h.2⟩

/-! ## C1: the claimed `+`-split classification -/

/-- QueryValues as §3 of the spec describes it: `NoValue`, `Single`, or
`Multiple` over `+`-delimited segments. This type exists only in the
spec; the code's index stores a flat `Option` per key. -/
inductive QueryValues
  | NoValue
  | Single (v : List Char)
  | Multiple (vs : List (List Char))
deriving DecidableEq

/-- Modelled from the spec (for comparison with the code): split a raw
query value on literal `+`, drop empty segments, and classify into
`NoValue`/`Single`/`Multiple`. -/
def specClassify (v : List Char) : QueryValues :=
  match (splitOnChar '+' v).filter (fun p => p ≠ []) with
  | [] => .NoValue
  | [s] => .Single s
  | ss => .Multiple ss

/-- C1 counterexample: for the query `a=1+2&b=&c=x` the spec's
classification of the raw value `1+2` is `Multiple ["1", "2"]`, but the
code's index maps `a` to the single flat string `"1 2"` (the validator's
form-urlencoded pair decoding turns `+` into a space): no `+`-split into
segments occurs, and the stored value is none of `1+2`, `1`, `2`. -/
theorem query_plus_split_counterexample :
    newGetKey ("http://h/?a=1+2&b=&c=x").data ("a").data =
      some (some (some ("1 2").data)) ∧
    specClassify ("1+2").data = QueryValues.Multiple [("1").data, ("2").data] ∧
    ("1 2").data ≠ ("1+2").data ∧ ("1 2").data ≠ ("1").data ∧ ("1 2").data ≠ ("2").data :=
  ⟨by decide, by decide, by decide, by decide, by decide⟩

/-- C1 amended: the code's query index stores one flat optional decoded
value per key — for `a=1+2&b=&c=x` it maps `a` to `Some "1 2"` (`+`
decodes to a space under the validator's form-urlencoded decoding), `b`
to present-with-no-value and `c` to `Some "x"`, while an unmentioned key
is absent; no `NoValue`/`Single`/`Multiple` classification exists in the
code. -/
theorem query_index_flat_values :
    newGetKey ("http://h/?a=1+2&b=&c=x").data ("a").data =
      some (some (some ("1 2").data)) ∧
    newGetKey ("http://h/?a=1+2&b=&c=x").data ("b").data = some (some none) ∧
    newGetKey ("http://h/?a=1+2&b=&c=x").data ("c").data =
      some (some (some ("x").data)) ∧
    newGetKey ("http://h/?a=1+2&b=&c=x").data ("zz").data = some none :=
  ⟨by decide, by decide, by decide, by decide⟩

end SerdeUrl
